import Mathlib

/-!
# Verification of the graph-algorithm engine of GraphTheoryVisualizer

This file gives a shallow embedding of the algorithmic core of `src/main.py`
(the functions `bfs`, `dfs`, `dijk`, `kruskals` together with the module
constant `INF` and the module-level edge list `edge_weights_labels`) and
proves, or refutes, the behavioural claims made about it.

Modelling conventions, chosen to mirror the Python source statement by
statement:

* A graph (the Python dict `{node : [[weight, neighbour], ...]}`) is an
  insertion-ordered association list `List (Node × List (Nat × Node))`.
  Node identifiers are integers (the DFS engine uses `-1` as the "no parent"
  sentinel, so identifiers live in `Int`).  Edge weights in the source are
  produced by `int(round(...))` of a Euclidean distance, hence non-negative
  integers; they are modelled as `Nat`.
* A Python dict read `d[k]` that can fail with `KeyError` is modelled either
  with `Except`/`Option` (where a claim is about the failure behaviour, as
  for `bfs` and for the list indexing in `kruskals`) or as a total lookup
  with a default that is never exercised under the well-formedness
  hypotheses carried by the theorems (`dfs`, `dijk`).
* Python `while`/recursion is modelled by structural recursion on an explicit
  fuel argument; the entry points bake in a fuel that is proved (in the
  lemmas below) to dominate a strictly decreasing termination measure, so the
  fuel-exhaustion branch is unreachable on the inputs the theorems speak
  about.
* The `heapq` min-heap of `dijk` is modelled as a list kept sorted by the
  lexicographic order on `(distance, node)` pairs: `heappush` is ordered
  insertion and `heappop` takes the head.  This realises exactly the heapq
  contract (pop returns a least element); no claim in scope depends on the
  tie-breaking order among equal elements.
* Python's stable in-place `list.sort(key=...)` in `kruskals` is modelled by
  the stable `List.mergeSort` on the weight order, with the sorted list
  returned explicitly as the post-state of the module-level edge list.
-/

namespace GTV

/-- Node identifiers: Python ints (the DFS root call uses `-1` as parent). -/
abbrev Node := Int

/-- Adjacency entries `[weight, connected_node]` of `adj_list`. -/
abbrev Adj := List (Nat × Node)

/-- The adjacency dict `{node : [[weight, neighbour], ...]}`, insertion
ordered. -/
abbrev Graph := List (Node × Adj)

/-- `INF = int(2e9)`, the sentinel distance of `main.py`. -/
def INF : Nat := 2000000000

/-- Dict read `graph[u]`: `none` models a Python `KeyError`. -/
def lookupE (g : Graph) (u : Node) : Option Adj :=
  match g with
  | [] => none
  | (k, l) :: rest => if k = u then some l else lookupE rest u

/-- Total dict read with default `[]`; used where the surrounding theorems
guarantee (via `WFg`) that the key is present, so the default is never
exercised. -/
def lookupG (g : Graph) (u : Node) : Adj :=
  (lookupE g u).getD []

/-- The key list of the dict (insertion order). -/
def keys (g : Graph) : List Node := g.map Prod.fst

/-- All nodes occurring as adjacency targets. -/
def targets (g : Graph) : List Node :=
  (g.map (fun p => p.2.map Prod.snd)).flatten

/-- Every node mentioned anywhere in the dict. -/
def allNodes (g : Graph) : List Node := keys g ++ targets g

/-- Well-formedness of a caller-supplied graph: dict keys are unique (true of
every Python dict) and every adjacency target is itself a key (true of every
graph built by `create_networkx_graph`, which inserts each edge in both
directions over the node list). -/
def WFg (g : Graph) : Prop :=
  (keys g).Nodup ∧ ∀ p ∈ g, ∀ e ∈ p.2, e.2 ∈ keys g

instance (g : Graph) : Decidable (WFg g) := by
  unfold WFg; infer_instance

/-- One-step adjacency relation of the dict. -/
def adjStep (g : Graph) (u v : Node) : Prop := ∃ w, (w, v) ∈ lookupG g u

/-- Reachability along adjacency entries; on the symmetric graphs the editor
builds this is exactly "same connected component as". -/
def connAdj (g : Graph) (s v : Node) : Prop :=
  Relation.ReflTransGen (adjStep g) s v

/-! ## BFS (`bfs`, main.py lines 64-100)

State: `queue`, `bfs_visited`, `order_visited`.  The dict read
`graph[current_node]` can raise `KeyError`; the error value records the
missing key together with the `order_visited` list at the moment of the
raise. -/

structure BfsSt where
  queue : List Node
  visited : List Node
  order : List (Node × Node)

/-- The `for neighbour in graph[current_node]` body of `bfs`. -/
def bfsScan (current : Node) : Adj → BfsSt → BfsSt
  | [], s => s
  | (_, adjacent) :: rest, s =>
    if adjacent ∈ s.visited then
      bfsScan current rest s
    else
      bfsScan current rest
        { queue := s.queue ++ [adjacent],
          visited := s.visited ++ [adjacent],
          order := s.order ++ [(current, adjacent)] }

/-- The `while queue:` loop of `bfs`.  `queue.pop(0)` happens after the scan,
mirroring the source. -/
def bfsLoop (g : Graph) : Nat → BfsSt → Except (Node × List (Node × Node)) (List (Node × Node))
  | 0, s => .ok s.order
  | fuel + 1, s =>
    match s.queue with
    | [] => .ok s.order
    | current :: _ =>
      match lookupE g current with
      | none => .error (current, s.order)
      | some adj =>
        let s1 := bfsScan current adj s
        bfsLoop g fuel { s1 with queue := s1.queue.tail }

/-- Fuel dominating the BFS termination measure
`queue.length + #(distinct mentioned nodes not yet visited)`. -/
def bfsFuel (g : Graph) : Nat := ((allNodes g).dedup).length + 2

/-- `bfs(graph, start)`.  Initial state: `queue = [start]`,
`bfs_visited = [start]`, `order_visited = [(start, start)]`. -/
def bfs (g : Graph) (start : Node) : Except (Node × List (Node × Node)) (List (Node × Node)) :=
  bfsLoop g (bfsFuel g) ⟨[start], [start], [(start, start)]⟩

/-! ## DFS (`dfs`, main.py lines 103-138)

The externally threaded mutable `visited`/`path` containers become explicit
state.  The Python function mutates its arguments and only the top-level call
uses the returned `path`; the model returns the final state. -/

structure DfsSt where
  visited : List Node
  path : List Node

/-- `dfs(graph, current, parent, visited, path)` with fuel (the recursion
depth is bounded, on well-formed graphs, by the number of distinct nodes;
`dfsFuel` below dominates it). -/
def dfsF (g : Graph) : Nat → Node → Node → DfsSt → DfsSt
  | 0, _, _, s => s
  | fuel + 1, current, parent, s =>
    if current ∈ s.visited then s
    else
      let s1 : DfsSt := ⟨s.visited ++ [current], s.path ++ [current]⟩
      let s2 := (lookupG g current).foldl (fun t e => dfsF g fuel e.2 current t) s1
      if parent ≠ -1 then { s2 with path := s2.path ++ [parent] } else s2

/-- Fuel dominating the DFS recursion depth. -/
def dfsFuel (g : Graph) : Nat := ((allNodes g).dedup).length + 1

/-- The top-level call `dfs(adj_list, start, -1, [], [])` made by
`update_dfs`; returns the final `path`. -/
def dfs (g : Graph) (start : Node) : List Node :=
  (dfsF g (dfsFuel g) start (-1) ⟨[], []⟩).path

/-! ## Dijkstra (`dijk`, main.py lines 227-262) -/

/-- Lexicographic order on the `(distance, node)` tuples pushed on the heap
(Python compares tuples of ints lexicographically). -/
def heapLe (a b : Nat × Node) : Prop := a.1 < b.1 ∨ (a.1 = b.1 ∧ a.2 ≤ b.2)

instance : DecidableRel heapLe := fun a b => by unfold heapLe; infer_instance

/-- `heappush`: the heap as a sorted list, push = ordered insertion. -/
def hpush (h : List (Nat × Node)) (e : Nat × Node) : List (Nat × Node) :=
  List.orderedInsert heapLe e h

structure DijkSt where
  d : Node → Nat
  heap : List (Nat × Node)
  ov : List Node
  ad : List (Node → Nat)

/-- The body of a successful relaxation in `dijk`:
`dists[node] = dists[cur] + wt`, `hpush(heap, (dists[node], node))`,
`order_visited.append(node)`, `animation_dists.append(dists.copy())`. -/
def relaxSt (cur : Node) (wt : Nat) (node : Node) (s : DijkSt) : DijkSt :=
  let nd : Node → Nat := fun v => if v = node then s.d cur + wt else s.d v
  { d := nd,
    heap := hpush s.heap (s.d cur + wt, node),
    ov := s.ov ++ [node],
    ad := s.ad ++ [nd] }

/-- The `for wt, node in graph[cur]` relaxation loop of `dijk`:
`if dists[cur] + wt < dists[node]` then relax. -/
def dijkScan (cur : Node) : Adj → DijkSt → DijkSt
  | [], s => s
  | (wt, node) :: rest, s =>
    if s.d cur + wt < s.d node then dijkScan cur rest (relaxSt cur wt node s)
    else dijkScan cur rest s

/-- The `while heap:` loop of `dijk`: pop the least element, relax its
adjacency list. -/
def dijkLoop (g : Graph) : Nat → DijkSt → DijkSt
  | 0, s => s
  | fuel + 1, s =>
    match s.heap with
    | [] => s
    | (_, cur) :: hrest =>
      dijkLoop g fuel (dijkScan cur (lookupG g cur) { s with heap := hrest })

/-- Initial state of `dijk`: `dists` maps every node to `INF` except
`dists[start] = 0`, `heap = [(0, start)]`, `order_visited = [start]`,
`animation_dists = [dists.copy()]`. -/
def dijkInit (start : Node) : DijkSt :=
  let d0 : Node → Nat := fun v => if v = start then 0 else INF
  ⟨d0, [(0, start)], [start], [d0]⟩

/-- Fuel dominating the Dijkstra termination measure
`heap.length + Σ dists` (each relaxation strictly decreases a distance that
starts at `INF`). -/
def dijkFuel (g : Graph) : Nat := ((allNodes g).dedup).length * INF + 2

/-- `dijk(graph, start)`, returning `(animation_dists, order_visited)`. -/
def dijk (g : Graph) (start : Node) : List (Node → Nat) × List Node :=
  let s := dijkLoop g (dijkFuel g) (dijkInit start)
  (s.ad, s.ov)

/-- The final distance table: the last snapshot of `animation_dists`. -/
def dijkFinalTable (g : Graph) (start : Node) : Node → Nat :=
  (dijk g start).1.getLastD (fun _ => 0)

/-! ### Reference shortest-path computation (specification side)

An independent Bellman-Ford-style iteration over `ℕ∞`, as suggested by the
specification ("an independent reference shortest-path computation").
`bf g s k v` is the least cost of a walk from `s` to `v` using at most `k`
adjacency steps (`⊤` if none exists). -/

/-- Minimum of `dk u + w` over all adjacency entries `(w, v)` listed under
any key `u` of the dict. -/
def bfMin (g : Graph) (dk : Node → ℕ∞) (v : Node) : ℕ∞ :=
  g.foldr
    (fun p acc =>
      p.2.foldr (fun e acc2 => if e.2 = v then min acc2 (dk p.1 + (e.1 : ℕ∞)) else acc2) acc)
    ⊤

/-- Reference distances: walks of at most `k` steps. -/
def bf (g : Graph) (start : Node) : Nat → Node → ℕ∞
  | 0, v => if v = start then 0 else ⊤
  | k + 1, v => min (bf g start k v) (bfMin g (bf g start k) v)

/-- `WalkL g u steps v`: `steps` is a list of adjacency entries forming a
walk from `u` to `v` in the dict. -/
def WalkL (g : Graph) : Node → List (Nat × Node) → Node → Prop
  | u, [], v => u = v
  | u, e :: rest, v => e ∈ lookupG g u ∧ WalkL g e.2 rest v

/-- Total weight of a walk. -/
def wcost (steps : List (Nat × Node)) : Nat := (steps.map Prod.fst).sum

/-! ## Kruskal (`kruskals`, main.py lines 179-224)

The engine reads the module-level list `edge_weights_labels` (entries
`[a, b, weight]`), sorts it in place by weight, and runs union-find over
`root = list(range(N))` indexing `root` directly by node identifier.
Identifiers appearing in `edge_weights_labels` are the editor-assigned
non-negative node names, modelled as `Nat`; an out-of-range index is a Python
`IndexError`, modelled as `none`. -/

abbrev KEdge := Nat × Nat × Nat

/-- The sort key `lambda x: x[2]`: compare edges by weight. -/
def wleP (e1 e2 : KEdge) : Prop := e1.2.2 ≤ e2.2.2

instance : DecidableRel wleP := fun a b => by unfold wleP; infer_instance

instance : IsTotal KEdge wleP := ⟨fun a b => by unfold wleP; omega⟩

instance : IsTrans KEdge wleP := ⟨fun a b c => by unfold wleP; omega⟩

/-- In-place `edges.sort(key=lambda x: x[2])`, as a function.  Python's sort
is stable; insertion sort on the reflexive order `wleP` is also stable
(an earlier element is inserted before any equal-weight later element), and
a stable weight-sort is unique as a function of the input list. -/
def sortEdges (ews : List KEdge) : List KEdge := List.insertionSort wleP ews

/-- `find(x)` with path compression.  Returns the representative together
with the updated `root` array; `none` models either an out-of-range index
(`IndexError`) or fuel exhaustion — the latter is proved unreachable below
for every `root` arising from `list(range(N))` by `find`/`join` steps. -/
def find : Nat → List Nat → Nat → Option (Nat × List Nat)
  | 0, _, _ => none
  | fuel + 1, root, x =>
    match root[x]? with
    | none => none
    | some px =>
      if px = x then some (x, root)
      else
        match find fuel root px with
        | none => none
        | some (r, root1) => some (r, root1.set x r)

/-- `join(a, b)`: `root[find(a)] = root[find(b)]`.  Python evaluates the
right-hand side first (`find(b)`, then the read `root[find(b)]`), then the
target index (`find(a)`), then stores. -/
def join (N : Nat) (root : List Nat) (a b : Nat) : Option (List Nat) := do
  let pb ← find N root b
  let t ← pb.2[pb.1]?
  let pa ← find N pb.2 a
  some (pa.2.set pa.1 t)

/-- The `for i in range(len(edges))` loop of `kruskals`: test
`find(a) != find(b)`, join if the roots differ, and record
`[edges[i], added]`. -/
def kruskalLoop (N : Nat) : List KEdge → List Nat → Option (List (KEdge × Bool))
  | [], _ => some []
  | e :: rest, root => do
    let pa ← find N root e.1
    let pb ← find N pa.2 e.2.1
    if pa.1 ≠ pb.1 then
      let root3 ← join N pb.2 e.1 e.2.1
      let tr ← kruskalLoop N rest root3
      some ((e, true) :: tr)
    else
      let tr ← kruskalLoop N rest pb.2
      some ((e, false) :: tr)

/-- `kruskals` after the in-place sort: run the loop over the sorted edges
with `root = list(range(N))`. -/
def kruskalsRun (N : Nat) (ews : List KEdge) : Option (List (KEdge × Bool)) :=
  kruskalLoop N (sortEdges ews) (List.range N)

/-- `kruskals(G, N)` with the module-level `edge_weights_labels` made an
explicit input.  The parameter `G` is bound but never read by the source. -/
def kruskals {α : Type _} (_G : α) (N : Nat) (ews : List KEdge) : Option (List (KEdge × Bool)) :=
  kruskalsRun N ews

/-- The module-level `edge_weights_labels` after a run of `kruskals`: the
in-place sort has reordered it (this happens before any possible failure of
the loop). -/
def kruskalsEdgesAfter (ews : List KEdge) : List KEdge := sortEdges ews

/-- The graph argument of `bfs` after a run: `bfs` contains no write to
`graph`, so the threaded post-state is the input. -/
def bfsGraphAfter (g : Graph) (_start : Node) : Graph := g

/-- The graph argument of `dfs` after a run: `dfs` writes only `visited` and
`path`, never `graph`. -/
def dfsGraphAfter (g : Graph) (_start : Node) : Graph := g

/-- The graph argument of `dijk` after a run: `dijk` builds a fresh `dists`
dict and never writes to `graph`. -/
def dijkGraphAfter (g : Graph) (_start : Node) : Graph := g

/-! ### Reference connectivity on the Kruskal edge list (specification side)

An independent, executable connected-components count for the input graph
`(range N, ews)`: fuelled closure of the symmetric edge relation, and a count
of the minimal representative of each class. -/

/-- Both-direction neighbours of `v` in the edge list. -/
def enbrs (ews : List KEdge) (v : Nat) : List Nat :=
  ews.foldr
    (fun e acc => if e.1 = v then e.2.1 :: acc else if e.2.1 = v then e.1 :: acc else acc) []

/-- One closure round: add all unseen neighbours of the current set. -/
def espread (ews : List KEdge) (s : List Nat) : List Nat :=
  s ++ ((s.map (enbrs ews)).flatten.filter (fun v => decide (v ∉ s)))

/-- Iterated closure. -/
def ereach (ews : List KEdge) : Nat → List Nat → List Nat
  | 0, s => s
  | f + 1, s => ereach ews f (espread ews s)

/-- Executable connectivity test between `x` and `y` via edges of `ews`. -/
def connectedB (ews : List KEdge) (fuel : Nat) (x y : Nat) : Bool :=
  y ∈ ereach ews fuel [x]

/-- Number of connected components of the graph `(range N, ews)`: the count
of nodes that are the smallest member of their component. -/
def numComponents (N : Nat) (ews : List KEdge) : Nat :=
  ((List.range N).filter
    (fun x => decide (∀ y ∈ List.range N, y < x → connectedB ews (N + 1) x y = false))).length

/-- Symmetric one-step edge relation of the edge list. -/
def estep (ews : List KEdge) (u v : Nat) : Prop :=
  ∃ w, (u, v, w) ∈ ews ∨ (v, u, w) ∈ ews

/-- Connectivity (proposition side). -/
def econn (ews : List KEdge) (u v : Nat) : Prop :=
  Relation.ReflTransGen (estep ews) u v

/-! ### Specification-side view of the union-find state -/

/-- `k`-fold parent-pointer iteration in the `root` array. -/
def iterR (root : List Nat) : Nat → Nat → Nat
  | 0, x => x
  | k + 1, x => root.getD (iterR root k x) 0

/-- `x` is a root: its parent pointer is itself. -/
def isFix (root : List Nat) (x : Nat) : Prop := root.getD x 0 = x

instance (root : List Nat) (x : Nat) : Decidable (isFix root x) := by
  unfold isFix; infer_instance

/-- Fuelled parent chasing without compression (specification-side
representative function). -/
def chase (root : List Nat) : Nat → Nat → Nat
  | 0, x => x
  | f + 1, x => if root.getD x 0 = x then x else chase root f (root.getD x 0)

/-- The representative of `x`: chase with fuel `N` (enough on any valid
`root` array over `N` elements). -/
def repOf (N : Nat) (root : List Nat) (x : Nat) : Nat := chase root N x

/-- `r` is the root reached from `x` by following parent pointers. -/
def RootReach (root : List Nat) (x r : Nat) : Prop :=
  (∃ k, iterR root k x = r) ∧ isFix root r

/-- Validity of a union-find state over `N` elements: correct length,
in-range parent pointers, and every chain reaches a root. -/
structure UFInv (N : Nat) (root : List Nat) : Prop where
  len : root.length = N
  bounded : ∀ x, x < N → root.getD x 0 < N
  reaches : ∀ x, x < N → ∃ k, isFix root (iterR root k x)

/-- `x` and `y` have the same representative. -/
def sameRep (root : List Nat) (x y : Nat) : Prop :=
  ∃ r, RootReach root x r ∧ RootReach root y r

/-- Number of accepted edges in a Kruskal trace. -/
def acceptCount (tr : List (KEdge × Bool)) : Nat := (tr.filter (fun ev => ev.2)).length

/-- Number of distinct representatives over `0..N-1`. -/
def classCount (N : Nat) (root : List Nat) : Nat :=
  ((Finset.range N).image (repOf N root)).card

/-! ### Concrete example inputs used by witnesses and counterexamples -/

/-- The specification's concrete scenario: nodes `{0,1,2,3}`, edges
`(0,1,5), (1,2,3), (2,3,1), (0,3,10)`, as `create_networkx_graph` lays them
out in `adj_list` (both directions, insertion order). -/
def gSquare : Graph :=
  [(0, [(5, 1), (10, 3)]), (1, [(5, 0), (3, 2)]), (2, [(3, 1), (1, 3)]),
   (3, [(1, 2), (10, 0)])]

/-- A two-node graph whose single edge weight `3e9` exceeds the sentinel
`INF = 2e9`. -/
def gHeavy : Graph := [(0, [(3000000000, 1)]), (1, [(3000000000, 0)])]

/-- A one-node graph with no edges. -/
def gOne : Graph := [(0, [])]

/-! ## Basic lemmas about the dict model -/

theorem lookupE_isSome_iff {g : Graph} {u : Node} : (lookupE g u).isSome ↔ u ∈ keys g := by
  induction g with
  | nil => simp [lookupE, keys]
  | cons p rest ih =>
    obtain ⟨k, l⟩ := p
    by_cases hk : k = u
    · subst hk
      simp [lookupE, keys]
    · simp [lookupE, hk, keys, ih]
      tauto

theorem lookupE_mem {g : Graph} {u : Node} {l : Adj} (h : lookupE g u = some l) : (u, l) ∈ g := by
  induction g with
  | nil => simp [lookupE] at h
  | cons p rest ih =>
    obtain ⟨k, al⟩ := p
    by_cases hk : k = u
    · subst hk
      simp [lookupE] at h
      simp [h]
    · simp [lookupE, hk] at h
      simp [ih h]

theorem lookupE_none {g : Graph} {u : Node} (h : u ∉ keys g) : lookupE g u = none := by
  cases hE : lookupE g u with
  | none => rfl
  | some l =>
    exact absurd (lookupE_isSome_iff.1 (by simp [hE])) h

theorem mem_lookupG_mem_targets {g : Graph} {u : Node} {e : Nat × Node}
    (h : e ∈ lookupG g u) : e.2 ∈ targets g := by
  unfold lookupG at h
  cases hE : lookupE g u with
  | none => simp [hE] at h
  | some l =>
    rw [hE] at h
    simp only [Option.getD_some] at h
    have hm := lookupE_mem hE
    simp only [targets, List.mem_flatten, List.mem_map]
    exact ⟨l.map Prod.snd, ⟨(u, l), hm, rfl⟩, List.mem_map_of_mem Prod.snd h⟩

theorem mem_lookupG_mem_keys {g : Graph} (hwf : WFg g) {u : Node} {e : Nat × Node}
    (h : e ∈ lookupG g u) : e.2 ∈ keys g := by
  unfold lookupG at h
  cases hE : lookupE g u with
  | none => simp [hE] at h
  | some l =>
    rw [hE] at h
    simp only [Option.getD_some] at h
    exact hwf.2 (u, l) (lookupE_mem hE) e h

theorem mem_lookupG_mem_allNodes {g : Graph} {u : Node} {e : Nat × Node}
    (h : e ∈ lookupG g u) : e.2 ∈ allNodes g := by
  simp [allNodes]
  exact Or.inr (mem_lookupG_mem_targets h)

/-! ## C10: `kruskals` ignores its graph argument -/

/-- C10: for any two values passed as the graph argument, with the same
module-level edge list and node count, `kruskals` returns the same trace:
the output is a function of the edge list and `N` only (the source never
reads the parameter `G`). -/
theorem kruskals_independent_of_graph {α β : Type _} (G1 : α) (G2 : β) (N : Nat)
    (ews : List KEdge) : kruskals G1 N ews = kruskals G2 N ews := rfl

/-! ## C5: which inputs survive a run unchanged -/

/-- C5 counterexample: the claim "the edge list (including the order of its
elements) is identical before and after the run" fails for `kruskals`, which
sorts the module-level `edge_weights_labels` in place: on the two-edge list
below (weights out of order) the list after the run differs from the list
before. -/
theorem kruskals_reorders_edge_list :
    kruskalsEdgesAfter [(1, 2, 3), (0, 1, 1)] ≠ [(1, 2, 3), (0, 1, 1)] := by decide

theorem sortEdges_perm (ews : List KEdge) : (sortEdges ews).Perm ews :=
  List.perm_insertionSort wleP ews

theorem sortEdges_idem (ews : List KEdge) : sortEdges (sortEdges ews) = sortEdges ews :=
  List.Sorted.insertionSort_eq (List.sorted_insertionSort wleP ews)

/-- C5 amended: `bfs`, `dfs` and `dijk` leave the graph unchanged; `kruskals`
leaves the multiset of edges unchanged but reorders the module edge list by
sorting it in place (stably, by weight), and the reordering does not change
the trace of any later run. -/
theorem engines_input_mutation :
    (∀ (g : Graph) (s : Node), bfsGraphAfter g s = g) ∧
    (∀ (g : Graph) (s : Node), dfsGraphAfter g s = g) ∧
    (∀ (g : Graph) (s : Node), dijkGraphAfter g s = g) ∧
    (∀ ews : List KEdge, kruskalsEdgesAfter ews = sortEdges ews) ∧
    (∀ ews : List KEdge, (kruskalsEdgesAfter ews).Perm ews) ∧
    (∀ (N : Nat) (ews : List KEdge), kruskalsRun N (kruskalsEdgesAfter ews) = kruskalsRun N ews) := by
  refine ⟨fun _ _ => rfl, fun _ _ => rfl, fun _ _ => rfl, fun _ => rfl, sortEdges_perm, ?_⟩
  intro N ews
  unfold kruskalsRun kruskalsEdgesAfter
  rw [sortEdges_idem]

/-! ## C9: the two Dijkstra trace lists have equal length -/

theorem relaxSt_ad (cur : Node) (wt : Nat) (node : Node) (s : DijkSt) :
    (relaxSt cur wt node s).ad = s.ad ++ [(relaxSt cur wt node s).d] := rfl

theorem relaxSt_ov (cur : Node) (wt : Nat) (node : Node) (s : DijkSt) :
    (relaxSt cur wt node s).ov = s.ov ++ [node] := rfl

theorem dijkScan_len_eq {cur : Node} (l : Adj) (s : DijkSt)
    (h : s.ad.length = s.ov.length) :
    (dijkScan cur l s).ad.length = (dijkScan cur l s).ov.length := by
  induction l generalizing s with
  | nil => simpa [dijkScan] using h
  | cons e rest ih =>
    obtain ⟨wt, node⟩ := e
    by_cases hrel : s.d cur + wt < s.d node
    · simp only [dijkScan, if_pos hrel]
      apply ih
      simp [relaxSt_ad, relaxSt_ov, h]
    · simp only [dijkScan, if_neg hrel]
      exact ih s h

theorem dijkLoop_len_eq (g : Graph) (fuel : Nat) (s : DijkSt)
    (h : s.ad.length = s.ov.length) :
    (dijkLoop g fuel s).ad.length = (dijkLoop g fuel s).ov.length := by
  induction fuel generalizing s with
  | zero => simpa [dijkLoop] using h
  | succ n ih =>
    match hs : s.heap with
    | [] => simpa [dijkLoop, hs] using h
    | (p, cur) :: hrest =>
      simp only [dijkLoop, hs]
      exact ih _ (dijkScan_len_eq _ _ h)

/-- C9: the snapshot list `animation_dists` and the visit list
`order_visited` returned by `dijk` always have the same length (both grow by
exactly one entry at every relaxation, starting from one initial entry), so
indexing both with the same frame number is always in bounds. -/
theorem dijk_trace_lengths_eq (g : Graph) (s : Node) :
    (dijk g s).1.length = (dijk g s).2.length := by
  unfold dijk
  exact dijkLoop_len_eq g (dijkFuel g) (dijkInit s) (by simp [dijkInit])

/-! ## C8: per-node distances are non-increasing across snapshots -/

/-- Pointwise order between snapshots: the later table is everywhere at most
the earlier one. -/
def DStep (d1 d2 : Node → Nat) : Prop := ∀ v, d2 v ≤ d1 v

/-- Invariant for C8: snapshots are pairwise non-increasing and the live
table is below every recorded snapshot. -/
def MonoInv (s : DijkSt) : Prop :=
  List.Pairwise DStep s.ad ∧ ∀ a ∈ s.ad, DStep a s.d

theorem relaxSt_d_le (cur : Node) (wt : Nat) (node : Node) (s : DijkSt)
    (hrel : s.d cur + wt < s.d node) : DStep s.d (relaxSt cur wt node s).d := by
  intro v
  show (if v = node then s.d cur + wt else s.d v) ≤ s.d v
  by_cases hv : v = node
  · subst hv
    simp
    omega
  · simp [hv]

theorem relaxSt_mono (cur : Node) (wt : Nat) (node : Node) (s : DijkSt)
    (hrel : s.d cur + wt < s.d node) (h : MonoInv s) : MonoInv (relaxSt cur wt node s) := by
  obtain ⟨hpw, hlive⟩ := h
  have hnd := relaxSt_d_le cur wt node s hrel
  constructor
  · rw [relaxSt_ad, List.pairwise_append]
    refine ⟨hpw, List.pairwise_singleton _ _, ?_⟩
    intro a ha b hb
    simp at hb
    subst hb
    intro v
    exact le_trans (hnd v) (hlive a ha v)
  · intro a ha
    rw [relaxSt_ad] at ha
    simp at ha
    rcases ha with ha | ha
    · intro v
      exact le_trans (hnd v) (hlive a ha v)
    · subst ha
      intro v
      exact le_rfl

theorem dijkScan_mono {cur : Node} (l : Adj) (s : DijkSt) (h : MonoInv s) :
    MonoInv (dijkScan cur l s) := by
  induction l generalizing s with
  | nil => simpa [dijkScan] using h
  | cons e rest ih =>
    obtain ⟨wt, node⟩ := e
    by_cases hrel : s.d cur + wt < s.d node
    · simp only [dijkScan, if_pos hrel]
      exact ih _ (relaxSt_mono cur wt node s hrel h)
    · simp only [dijkScan, if_neg hrel]
      exact ih s h

theorem dijkLoop_mono (g : Graph) (fuel : Nat) (s : DijkSt) (h : MonoInv s) :
    MonoInv (dijkLoop g fuel s) := by
  induction fuel generalizing s with
  | zero => simpa [dijkLoop] using h
  | succ n ih =>
    match hs : s.heap with
    | [] => simpa [dijkLoop, hs] using h
    | (p, cur) :: hrest =>
      simp only [dijkLoop, hs]
      exact ih _ (dijkScan_mono _ _ ⟨h.1, h.2⟩)

/-! ## BFS lemmas (towards C2 and C6) -/

theorem lookupE_lookupG {g : Graph} {u : Node} {l : Adj} (h : lookupE g u = some l) :
    lookupG g u = l := by
  simp [lookupG, h]

/-- Structural description of one full neighbour scan of `bfs`: the newly
enqueued nodes `app` are appended, in scan order, to the queue, to the
visited list, and (paired with `current`) to the trace. -/
theorem bfsScan_spec (current : Node) (l : Adj) (s : BfsSt) :
    ∃ app : List Node,
      bfsScan current l s =
        ⟨s.queue ++ app, s.visited ++ app, s.order ++ app.map (fun a => (current, a))⟩ ∧
      app.Nodup ∧
      (∀ a ∈ app, a ∉ s.visited ∧ ∃ w, (w, a) ∈ l) ∧
      (∀ e ∈ l, e.2 ∈ s.visited ++ app) := by
  induction l generalizing s with
  | nil =>
    refine ⟨[], ?_, ?_, ?_, ?_⟩ <;> simp [bfsScan]
  | cons e rest ih =>
    obtain ⟨w0, a⟩ := e
    by_cases hv : a ∈ s.visited
    · simp only [bfsScan, if_pos hv]
      obtain ⟨app, heq, hnd, hprop, hcov⟩ := ih s
      refine ⟨app, heq, hnd, ?_, ?_⟩
      · intro b hb
        obtain ⟨h1, w, h2⟩ := hprop b hb
        exact ⟨h1, w, List.mem_cons_of_mem _ h2⟩
      · intro e he
        rcases List.mem_cons.1 he with he | he
        · subst he
          simp [List.mem_append.2 (Or.inl hv)]
        · exact hcov e he
    · simp only [bfsScan, if_neg hv]
      obtain ⟨app, heq, hnd, hprop, hcov⟩ :=
        ih ⟨s.queue ++ [a], s.visited ++ [a], s.order ++ [(current, a)]⟩
      refine ⟨a :: app, ?_, ?_, ?_, ?_⟩
      · rw [heq]
        simp
      · refine List.Pairwise.cons ?_ hnd
        intro b hb
        have := (hprop b hb).1
        simp at this
        intro hba
        exact this.2 (by rw [hba])
      · intro b hb
        rcases List.mem_cons.1 hb with hb | hb
        · subst hb
          exact ⟨hv, w0, List.mem_cons_self _ _⟩
        · obtain ⟨h1, w, h2⟩ := hprop b hb
          simp at h1
          exact ⟨h1.1, w, List.mem_cons_of_mem _ h2⟩
      · intro e he
        rcases List.mem_cons.1 he with he | he
        · subst he
          simp
        · have := hcov e he
          simp at this ⊢
          tauto

/-- Count of distinct mentioned nodes not yet visited. -/
def unvis (g : Graph) (vis : List Node) : Nat :=
  (((allNodes g).dedup).filter (fun x => decide (x ∉ vis))).length

/-- BFS termination measure. -/
def bfsMeasure (g : Graph) (s : BfsSt) : Nat := s.queue.length + unvis g s.visited

theorem filter_ne_length_lt {m : List Node} {a : Node} (ha : a ∈ m) :
    (m.filter (fun x => decide (x ≠ a))).length < m.length := by
  induction m with
  | nil => cases ha
  | cons b rest ih =>
    simp only [List.filter_cons]
    split
    case isTrue hcond =>
      have hb : b ≠ a := by simpa using hcond
      have ha2 : a ∈ rest := by
        rcases List.mem_cons.1 ha with h | h
        · exact absurd h.symm hb
        · exact h
      simpa using Nat.succ_lt_succ (ih ha2)
    case isFalse hcond =>
      simpa using Nat.lt_succ_of_le (List.length_filter_le _ _)

theorem unvis_snoc_lt {g : Graph} {vis : List Node} {a : Node}
    (hmem : a ∈ allNodes g) (hnv : a ∉ vis) : unvis g (vis ++ [a]) < unvis g vis := by
  unfold unvis
  have hcongr : ((allNodes g).dedup).filter (fun x => decide (x ∉ vis ++ [a])) =
      (((allNodes g).dedup).filter (fun x => decide (x ∉ vis))).filter
        (fun x => decide (x ≠ a)) := by
    rw [List.filter_filter]
    apply List.filter_congr
    intro x _
    by_cases h1 : x ∈ vis <;> by_cases h2 : x = a <;> simp [h1, h2]
  rw [hcongr]
  apply filter_ne_length_lt
  rw [List.mem_filter]
  exact ⟨List.mem_dedup.2 hmem, by simp [hnv]⟩

theorem unvis_append_le {g : Graph} (app : List Node) (vis : List Node)
    (happ : ∀ a ∈ app, a ∉ vis ∧ a ∈ allNodes g) (hnd : app.Nodup) :
    unvis g (vis ++ app) + app.length ≤ unvis g vis := by
  induction app generalizing vis with
  | nil => simp
  | cons a rest ih =>
    have h1 : unvis g (vis ++ [a]) < unvis g vis :=
      unvis_snoc_lt (happ a (List.mem_cons_self _ _)).2 (happ a (List.mem_cons_self _ _)).1
    have h2 : unvis g ((vis ++ [a]) ++ rest) + rest.length ≤ unvis g (vis ++ [a]) := by
      refine ih (vis ++ [a]) ?_ ((List.nodup_cons.1 hnd).2)
      intro b hb
      have hprev := happ b (List.mem_cons_of_mem _ hb)
      have hb_ne : b ≠ a := by
        intro hba
        subst hba
        exact (List.nodup_cons.1 hnd).1 hb
      constructor
      · simp [hprev.1, hb_ne]
      · exact hprev.2
    have h3 : vis ++ a :: rest = (vis ++ [a]) ++ rest := by simp
    rw [h3]
    simp only [List.length_cons]
    omega

/-- The BFS loop invariant. -/
structure BfsInv (g : Graph) (start : Node) (s : BfsSt) : Prop where
  q_vis : ∀ v ∈ s.queue, v ∈ s.visited
  q_keys : ∀ v ∈ s.queue, v ∈ keys g
  vis_nodup : s.visited.Nodup
  vis_conn : ∀ v ∈ s.visited, connAdj g start v
  ord_targets : s.order.map Prod.snd = s.visited
  ord_first : ∃ rest, s.order = (start, start) :: rest
  ord_src : ∀ e ∈ s.order, connAdj g start e.1
  closure : ∀ v ∈ s.visited, v ∈ s.queue ∨ ∀ e ∈ lookupG g v, e.2 ∈ s.visited
  start_vis : start ∈ s.visited

/-- Main BFS loop lemma: with enough fuel, from any invariant state the loop
returns `.ok` with a final state whose queue is empty and which still
satisfies the invariant. -/
theorem bfsLoop_ok (g : Graph) (start : Node) (hwf : WFg g) :
    ∀ (fuel : Nat) (s : BfsSt), BfsInv g start s → bfsMeasure g s < fuel →
      ∃ sF : BfsSt, bfsLoop g fuel s = .ok sF.order ∧ BfsInv g start sF ∧
        sF.queue = [] ∧ ∀ v ∈ s.visited, v ∈ sF.visited := by
  intro fuel
  induction fuel with
  | zero =>
    intro s _ hm
    exact absurd hm (by omega)
  | succ n ih =>
    intro s hinv hm
    match hq : s.queue with
    | [] =>
      exact ⟨s, by simp [bfsLoop, hq], hinv, hq, fun v hv => hv⟩
    | current :: qrest =>
      have hck : current ∈ keys g := hinv.q_keys current (by rw [hq]; exact List.mem_cons_self _ _)
      have hcv : current ∈ s.visited := hinv.q_vis current (by rw [hq]; exact List.mem_cons_self _ _)
      obtain ⟨adj, hadj⟩ : ∃ l, lookupE g current = some l := by
        have := lookupE_isSome_iff.2 hck
        cases hE : lookupE g current with
        | none => rw [hE] at this; simp at this
        | some l => exact ⟨l, rfl⟩
      have hadjG : lookupG g current = adj := lookupE_lookupG hadj
      obtain ⟨app, heq, hnd, hprop, hcov⟩ := bfsScan_spec current adj s
      simp only [bfsLoop, hq, hadj]
      have hstate : ({ bfsScan current adj s with queue := (bfsScan current adj s).queue.tail } : BfsSt) =
          ⟨qrest ++ app, s.visited ++ app, s.order ++ app.map (fun a => (current, a))⟩ := by
        rw [heq]
        simp [hq]
      rw [hstate]
      have happ_all : ∀ a ∈ app, a ∉ s.visited ∧ a ∈ allNodes g := by
        intro a haa
        obtain ⟨h1, w, h2⟩ := hprop a haa
        have h2x : ((w, a) : Nat × Node) ∈ lookupG g current := by
          rw [hadjG]
          exact h2
        exact ⟨h1, mem_lookupG_mem_allNodes h2x⟩
      have hconn_app : ∀ a ∈ app, connAdj g start a := by
        intro a haa
        obtain ⟨h1, w, h2⟩ := hprop a haa
        exact Relation.ReflTransGen.tail (hinv.vis_conn current hcv)
          ⟨w, by rw [hadjG]; exact h2⟩
      have hinv2 : BfsInv g start ⟨qrest ++ app, s.visited ++ app,
          s.order ++ app.map (fun a => (current, a))⟩ := by
        refine ⟨?_, ?_, ?_, ?_, ?_, ?_, ?_, ?_, ?_⟩
        · intro v hv
          show v ∈ s.visited ++ app
          rcases List.mem_append.1 hv with hv | hv
          · exact List.mem_append.2
              (Or.inl (hinv.q_vis v (by rw [hq]; exact List.mem_cons_of_mem _ hv)))
          · exact List.mem_append.2 (Or.inr hv)
        · intro v hv
          rcases List.mem_append.1 hv with hv | hv
          · exact hinv.q_keys v (by rw [hq]; exact List.mem_cons_of_mem _ hv)
          · obtain ⟨h1, w, h2⟩ := hprop v hv
            have h2x : ((w, v) : Nat × Node) ∈ lookupG g current := by
              rw [hadjG]
              exact h2
            exact mem_lookupG_mem_keys hwf h2x
        · show (s.visited ++ app).Nodup
          rw [List.nodup_append]
          exact ⟨hinv.vis_nodup, hnd, fun a ha hb => (hprop a hb).1 ha⟩
        · intro v hv
          rcases List.mem_append.1 hv with hv | hv
          · exact hinv.vis_conn v hv
          · exact hconn_app v hv
        · show (s.order ++ app.map (fun a => (current, a))).map Prod.snd = s.visited ++ app
          rw [List.map_append, hinv.ord_targets]
          congr 1
          simp
        · obtain ⟨r0, hr0⟩ := hinv.ord_first
          exact ⟨r0 ++ app.map (fun a => (current, a)), by rw [hr0]; simp⟩
        · intro e he
          rcases List.mem_append.1 he with he | he
          · exact hinv.ord_src e he
          · obtain ⟨a, _, hea⟩ := List.mem_map.1 he
            rw [← hea]
            exact hinv.vis_conn current hcv
        · intro v hv
          show v ∈ qrest ++ app ∨ ∀ e ∈ lookupG g v, e.2 ∈ s.visited ++ app
          rcases List.mem_append.1 hv with hv | hv
          · rcases hinv.closure v hv with hcl | hcl
            · rw [hq] at hcl
              rcases List.mem_cons.1 hcl with hveq | hcl
              · subst hveq
                right
                intro e he
                rw [hadjG] at he
                exact hcov e he
              · exact Or.inl (List.mem_append.2 (Or.inl hcl))
            · right
              intro e he
              exact List.mem_append.2 (Or.inl (hcl e he))
          · exact Or.inl (List.mem_append.2 (Or.inr hv))
        · show start ∈ s.visited ++ app
          exact List.mem_append.2 (Or.inl hinv.start_vis)
      have hm2 : bfsMeasure g (⟨qrest ++ app, s.visited ++ app,
          s.order ++ app.map (fun a => (current, a))⟩ : BfsSt) < n := by
        have hle := unvis_append_le app s.visited (fun a ha => happ_all a ha) hnd
        have hms : bfsMeasure g s = qrest.length + 1 + unvis g s.visited := by
          unfold bfsMeasure
          rw [hq]
          simp only [List.length_cons]
        rw [hms] at hm
        show (qrest ++ app).length + unvis g (s.visited ++ app) < n
        simp only [List.length_append]
        omega
      obtain ⟨sF, hF1, hF2, hF3, hF4⟩ := ih _ hinv2 hm2
      refine ⟨sF, hF1, hF2, hF3, ?_⟩
      intro v hv
      exact hF4 v (List.mem_append.2 (Or.inl hv))

/-! ## C2: BFS visits exactly the start's component, once each -/

/-- C2: for every well-formed graph and start node present in it, the trace
returned by `bfs` is `.ok`, its first event is the self-loop
`(start, start)`, every node of the start's component appears exactly once
as the target of an event (membership iff reachable, with no duplicate
targets), and no node outside the component appears in any event. -/
theorem bfs_component_trace (g : Graph) (start : Node) (hwf : WFg g)
    (hs : start ∈ keys g) :
    ∃ tr, bfs g start = .ok tr ∧
      tr.head? = some (start, start) ∧
      (tr.map Prod.snd).Nodup ∧
      (∀ v, v ∈ tr.map Prod.snd ↔ connAdj g start v) ∧
      (∀ e ∈ tr, connAdj g start e.1 ∧ connAdj g start e.2) := by
  have hinv0 : BfsInv g start ⟨[start], [start], [(start, start)]⟩ := by
    refine ⟨?_, ?_, ?_, ?_, ?_, ?_, ?_, ?_, ?_⟩
    · intro v hv
      exact hv
    · intro v hv
      simp at hv
      subst hv
      exact hs
    · simp
    · intro v hv
      simp at hv
      subst hv
      exact Relation.ReflTransGen.refl
    · rfl
    · exact ⟨[], rfl⟩
    · intro e he
      simp at he
      subst he
      exact Relation.ReflTransGen.refl
    · intro v hv
      simp at hv
      subst hv
      exact Or.inl (by simp)
    · simp
  have hm0 : bfsMeasure g ⟨[start], [start], [(start, start)]⟩ < bfsFuel g := by
    unfold bfsMeasure bfsFuel unvis
    have := List.length_filter_le (fun x => decide (x ∉ [start])) ((allNodes g).dedup)
    simp only [List.length_cons, List.length_nil]
    omega
  obtain ⟨sF, hF1, hF2, hF3, hF4⟩ :=
    bfsLoop_ok g start hwf (bfsFuel g) ⟨[start], [start], [(start, start)]⟩ hinv0 hm0
  refine ⟨sF.order, hF1, ?_, ?_, ?_, ?_⟩
  · obtain ⟨r0, hr0⟩ := hF2.ord_first
    rw [hr0]
    rfl
  · rw [hF2.ord_targets]
    exact hF2.vis_nodup
  · intro v
    rw [hF2.ord_targets]
    constructor
    · exact hF2.vis_conn v
    · intro hconn
      induction hconn with
      | refl => exact hF2.start_vis
      | tail hab hbc ih =>
        rcases hF2.closure _ ih with hcl | hcl
        · rw [hF3] at hcl
          cases hcl
        · obtain ⟨w, hw⟩ := hbc
          exact hcl (w, _) hw
  · intro e he
    refine ⟨hF2.ord_src e he, ?_⟩
    have : e.2 ∈ sF.order.map Prod.snd := List.mem_map_of_mem Prod.snd he
    rw [hF2.ord_targets] at this
    exact hF2.vis_conn _ this

/-- Witness for C2 at the specification's concrete square graph. -/
theorem bfs_component_trace_witness :
    WFg gSquare ∧ (0 : Node) ∈ keys gSquare ∧
      (∃ tr, bfs gSquare 0 = .ok tr ∧
        tr.head? = some (0, 0) ∧
        (tr.map Prod.snd).Nodup ∧
        (∀ v, v ∈ tr.map Prod.snd ↔ connAdj gSquare 0 v) ∧
        (∀ e ∈ tr, connAdj gSquare 0 e.1 ∧ connAdj gSquare 0 e.2)) :=
  ⟨by decide, by decide, bfs_component_trace gSquare 0 (by decide) (by decide)⟩

/-! ## C6: behaviour of `bfs` on a start node absent from the graph -/

/-- C6 counterexample: `bfs` performs no membership check and does not fail
before doing algorithm work.  On a graph without node `7`, `bfs(graph, 7)`
first records the synthetic event `(7, 7)` in `order_visited` and only then
fails — with a `KeyError` on the dict read `graph[7]` (the program defines
no `UnknownNodeError` anywhere) — so at the moment of failure the trace is
the non-empty list `[(7, 7)]`. -/
theorem bfs_missing_start_event :
    bfs gOne 7 = .error (7, [(7, 7)]) ∧ [((7 : Node), (7 : Node))] ≠ [] := by
  constructor
  · rfl
  · decide

/-- C6 amended: for every graph and start node not among its keys, `bfs`
fails with a `KeyError` on the start node at the first dequeue, after having
recorded exactly the initial synthetic self-loop event. -/
theorem bfs_unknown_start (g : Graph) (start : Node) (h : start ∉ keys g) :
    bfs g start = .error (start, [(start, start)]) := by
  have hE := lookupE_none h
  unfold bfs
  have hf : bfsFuel g = ((allNodes g).dedup).length + 1 + 1 := rfl
  rw [hf]
  simp [bfsLoop, hE]

/-- Witness for the amended C6. -/
theorem bfs_unknown_start_witness :
    (7 : Node) ∉ keys gOne ∧ bfs gOne 7 = .error (7, [(7, 7)]) :=
  ⟨by decide, bfs_unknown_start gOne 7 (by decide)⟩

/-! ## C4: DFS backtrack symmetry -/

theorem length_filter_mono {l : List Node} {p q : Node → Bool}
    (h : ∀ x, p x = true → q x = true) : (l.filter p).length ≤ (l.filter q).length := by
  induction l with
  | nil => simp
  | cons a rest ih =>
    simp only [List.filter_cons]
    cases hp : p a with
    | true =>
      rw [h a hp]
      simpa using ih
    | false =>
      cases hq : q a with
      | true => simpa using Nat.le_succ_of_le ih
      | false => simpa using ih

theorem unvis_append_right_le (g : Graph) (vis va : List Node) :
    unvis g (vis ++ va) ≤ unvis g vis := by
  unfold unvis
  apply length_filter_mono
  intro x hx
  simp at hx ⊢
  exact hx.1

/-- A `dfs` call on an already visited node is a no-op (the `if current in
visited: return` branch). -/
theorem dfsF_skip (g : Graph) (fuel : Nat) (c p : Node) (st : DfsSt)
    (h : c ∈ st.visited) : dfsF g fuel c p st = st := by
  cases fuel with
  | zero => rfl
  | succ n => simp [dfsF, h]

/-- Structure of one activated `dfs` call: it appends `current` to `path`,
then the entries produced by the recursive calls on its adjacency list, and
finally — exactly when `parent ≠ -1` — the backtrack marker `parent`.  The
visited list only grows. -/
theorem dfsF_structure (g : Graph) :
    ∀ (fuel : Nat) (c p : Node) (st : DfsSt),
      unvis g st.visited < fuel → c ∈ allNodes g → c ∉ st.visited →
      ∃ vapp mid, dfsF g fuel c p st =
        ⟨st.visited ++ vapp, st.path ++ [c] ++ mid ++ (if p = -1 then [] else [p])⟩ := by
  intro fuel
  induction fuel with
  | zero =>
    intro c p st hm
    exact absurd hm (by omega)
  | succ n ih =>
    intro c p st hm hca hcv
    have hfold : ∀ (l : Adj) (st1 : DfsSt), (∀ e ∈ l, e.2 ∈ allNodes g) →
        unvis g st1.visited < n →
        ∃ vapp2 mid2, l.foldl (fun t e => dfsF g n e.2 c t) st1 =
          ⟨st1.visited ++ vapp2, st1.path ++ mid2⟩ := by
      intro l
      induction l with
      | nil =>
        intro st1 _ _
        exact ⟨[], [], by simp⟩
      | cons e rest ihl =>
        intro st1 hall hm1
        by_cases hev : e.2 ∈ st1.visited
        · rw [List.foldl_cons, dfsF_skip g n e.2 c st1 hev]
          exact ihl st1 (fun x hx => hall x (List.mem_cons_of_mem _ hx)) hm1
        · obtain ⟨va, mid, heq⟩ :=
            ih e.2 c st1 hm1 (hall e (List.mem_cons_self _ _)) hev
          rw [List.foldl_cons, heq]
          have hm2 : unvis g (st1.visited ++ va) < n :=
            Nat.lt_of_le_of_lt (unvis_append_right_le g st1.visited va) hm1
          obtain ⟨va2, mid2, heq2⟩ :=
            ihl ⟨st1.visited ++ va, st1.path ++ [e.2] ++ mid ++ (if c = -1 then [] else [c])⟩
              (fun x hx => hall x (List.mem_cons_of_mem _ hx)) hm2
          refine ⟨va ++ va2, ([e.2] ++ mid ++ (if c = -1 then [] else [c])) ++ mid2, ?_⟩
          rw [heq2]
          simp
    have hs1m : unvis g (st.visited ++ [c]) < n := by
      have := unvis_snoc_lt hca hcv
      omega
    obtain ⟨vapp2, mid2, heq2⟩ :=
      hfold (lookupG g c) ⟨st.visited ++ [c], st.path ++ [c]⟩
        (fun e he => mem_lookupG_mem_allNodes he) hs1m
    simp only [dfsF]
    rw [if_neg hcv, heq2]
    by_cases hp : p = -1
    · subst hp
      refine ⟨[c] ++ vapp2, mid2, ?_⟩
      simp
    · refine ⟨[c] ++ vapp2, mid2, ?_⟩
      rw [if_pos hp]
      simp [hp]

/-- C4: in the `path` sequence produced by `dfs`, every activation of a
non-root node `c` (first appearance: `c` was not yet visited) contributes the
segment `[c] ++ (entries of its subtree) ++ [parent]` — the parent appears
immediately after the subtree entries — while the root call (parent `-1`)
contributes `[start] ++ (subtree entries)` with no backtrack marker. -/
theorem dfs_backtrack_symmetry (g : Graph) (start : Node) (hs : start ∈ keys g) :
    (∃ mid, dfs g start = [start] ++ mid) ∧
    (∀ (fuel : Nat) (c p : Node) (st : DfsSt),
      unvis g st.visited < fuel → c ∈ allNodes g → c ∉ st.visited → p ≠ -1 →
      ∃ mid, (dfsF g fuel c p st).path = st.path ++ [c] ++ mid ++ [p]) := by
  constructor
  · unfold dfs
    have hm : unvis g ([] : List Node) < dfsFuel g := by
      unfold unvis dfsFuel
      have hf : ((allNodes g).dedup).filter (fun x => decide (x ∉ ([] : List Node))) =
          (allNodes g).dedup := List.filter_eq_self.2 (by simp)
      rw [hf]
      omega
    have hstart_all : start ∈ allNodes g := by
      unfold allNodes
      exact List.mem_append.2 (Or.inl hs)
    obtain ⟨vapp, mid, heq⟩ :=
      dfsF_structure g (dfsFuel g) start (-1) ⟨[], []⟩ hm hstart_all (by simp)
    rw [heq]
    exact ⟨mid, by simp⟩
  · intro fuel c p st hm hca hcv hp
    obtain ⟨vapp, mid, heq⟩ := dfsF_structure g fuel c p st hm hca hcv
    rw [heq]
    exact ⟨mid, by simp [hp]⟩

/-- Witness for C4 at the specification's concrete square graph. -/
theorem dfs_backtrack_symmetry_witness :
    (0 : Node) ∈ keys gSquare ∧
      ((∃ mid, dfs gSquare 0 = [0] ++ mid) ∧
       (∀ (fuel : Nat) (c p : Node) (st : DfsSt),
         unvis gSquare st.visited < fuel → c ∈ allNodes gSquare → c ∉ st.visited →
         p ≠ -1 →
         ∃ mid, (dfsF gSquare fuel c p st).path = st.path ++ [c] ++ mid ++ [p])) :=
  ⟨by decide, dfs_backtrack_symmetry gSquare 0 (by decide)⟩

/-! ## Union-find chain lemmas (towards C7 and C3) -/

theorem iterR_add (root : List Nat) (x : Nat) (i m : Nat) :
    iterR root (i + m) x = iterR root m (iterR root i x) := by
  induction m with
  | zero => rfl
  | succ n ih => rw [← Nat.add_assoc, iterR, iterR, ih]

theorem iterR_shift (root : List Nat) (x : Nat) (k : Nat) :
    iterR root k (root.getD x 0) = iterR root (k + 1) x := by
  induction k with
  | zero => rfl
  | succ n ih =>
    rw [iterR, ih]
    rfl

theorem fix_stable (root : List Nat) (x : Nat) {a : Nat}
    (h : isFix root (iterR root a x)) :
    ∀ m, iterR root (a + m) x = iterR root a x := by
  intro m
  induction m with
  | zero => rfl
  | succ n ih => rw [← Nat.add_assoc, iterR, ih, h]

theorem iterR_eq_shift (root : List Nat) (x : Nat) {i j : Nat}
    (h : iterR root i x = iterR root j x) (m : Nat) :
    iterR root (i + m) x = iterR root (j + m) x := by
  rw [iterR_add, iterR_add, h]

theorem iterR_bounded {N : Nat} {root : List Nat}
    (hb : ∀ z, z < N → root.getD z 0 < N) {x : Nat} (hx : x < N) :
    ∀ m, iterR root m x < N := by
  intro m
  induction m with
  | zero => exact hx
  | succ n ih => exact hb _ ih

theorem RootReach_unique {root : List Nat} {x r1 r2 : Nat}
    (h1 : RootReach root x r1) (h2 : RootReach root x r2) : r1 = r2 := by
  obtain ⟨⟨k1, hk1⟩, hf1⟩ := h1
  obtain ⟨⟨k2, hk2⟩, hf2⟩ := h2
  rcases Nat.le_total k1 k2 with h | h
  · have := fix_stable root x (a := k1) (by rw [hk1]; exact hf1) (k2 - k1)
    rw [Nat.add_sub_cancel' h] at this
    rw [← hk2, this, hk1]
  · have := fix_stable root x (a := k2) (by rw [hk2]; exact hf2) (k1 - k2)
    rw [Nat.add_sub_cancel' h] at this
    rw [← hk1, this, hk2]

theorem RootReach_step {root : List Nat} {x r : Nat}
    (h : RootReach root (root.getD x 0) r) : RootReach root x r := by
  obtain ⟨⟨k, hk⟩, hf⟩ := h
  exact ⟨⟨k + 1, by rw [← iterR_shift]; exact hk⟩, hf⟩

theorem RootReach_fix_self {root : List Nat} {r : Nat} (h : isFix root r) :
    RootReach root r r := ⟨⟨0, rfl⟩, h⟩

theorem RootReach_iterR {root : List Nat} {x r : Nat} (h : RootReach root x r)
    (m : Nat) : RootReach root (iterR root m x) r := by
  obtain ⟨⟨k, hk⟩, hf⟩ := h
  rcases Nat.le_total m k with hle | hle
  · refine ⟨⟨k - m, ?_⟩, hf⟩
    rw [← iterR_add, Nat.add_sub_cancel' hle]
    exact hk
  · have hsta := fix_stable root x (a := k) (by rw [hk]; exact hf) (m - k)
    rw [Nat.add_sub_cancel' hle] at hsta
    rw [hsta, hk]
    exact RootReach_fix_self hf

theorem chain_bound {N : Nat} {root : List Nat} (h : UFInv N root) {x : Nat}
    (hx : x < N) : ∃ k, k < N ∧ isFix root (iterR root k x) := by
  obtain ⟨k0, hk0⟩ := h.reaches x hx
  have hex : ∃ k, isFix root (iterR root k x) := ⟨k0, hk0⟩
  have hkfix : isFix root (iterR root (Nat.find hex) x) := Nat.find_spec hex
  have hmin : ∀ j, j < Nat.find hex → ¬ isFix root (iterR root j x) :=
    fun j hj => Nat.find_min hex hj
  have hinj : ∀ i j, i ≤ Nat.find hex → j ≤ Nat.find hex →
      iterR root i x = iterR root j x → i = j := by
    intro i j hi hj hij
    by_contra hne
    rcases Nat.lt_or_ge i j with hlt | hge
    · have := iterR_eq_shift root x hij (Nat.find hex - j)
      rw [Nat.add_sub_cancel' hj] at this
      have hfixi : isFix root (iterR root (i + (Nat.find hex - j)) x) := by
        rw [this]
        exact hkfix
      exact hmin _ (by omega) hfixi
    · have hlt2 : j < i := by omega
      have := iterR_eq_shift root x hij.symm (Nat.find hex - i)
      rw [Nat.add_sub_cancel' hi] at this
      have hfixj : isFix root (iterR root (j + (Nat.find hex - i)) x) := by
        rw [this]
        exact hkfix
      exact hmin _ (by omega) hfixj
  have hmaps : ∀ m ∈ Finset.range (Nat.find hex + 1),
      iterR root m x ∈ Finset.range N := by
    intro m _
    exact Finset.mem_range.2 (iterR_bounded h.bounded hx m)
  have hcard : (Finset.range (Nat.find hex + 1)).card ≤ (Finset.range N).card := by
    apply Finset.card_le_card_of_injOn (fun m => iterR root m x) hmaps
    intro i hi j hj hij
    exact hinj i j (by simpa using Nat.lt_succ_iff.1 (Finset.mem_range.1 hi))
      (by simpa using Nat.lt_succ_iff.1 (Finset.mem_range.1 hj)) hij
  simp only [Finset.card_range] at hcard
  exact ⟨Nat.find hex, by omega, hkfix⟩

theorem chase_eq {root : List Nat} :
    ∀ (f x k : Nat), k ≤ f → isFix root (iterR root k x) →
      chase root f x = iterR root k x := by
  intro f
  induction f with
  | zero =>
    intro x k hk hfix
    have : k = 0 := Nat.le_zero.1 hk
    subst this
    rfl
  | succ n ih =>
    intro x k hk hfix
    by_cases h0 : root.getD x 0 = x
    · have : iterR root k x = x := by
        have := fix_stable root x (a := 0) h0 k
        simpa [iterR] using this
      rw [chase, if_pos h0, this]
    · cases k with
      | zero => exact absurd hfix h0
      | succ k0 =>
        rw [chase, if_neg h0]
        have hfix2 : isFix root (iterR root k0 (root.getD x 0)) := by
          rw [iterR_shift]
          exact hfix
        rw [ih (root.getD x 0) k0 (by omega) hfix2, iterR_shift]

theorem repOf_reach {N : Nat} {root : List Nat} (h : UFInv N root) {x : Nat}
    (hx : x < N) : RootReach root x (repOf N root x) := by
  obtain ⟨k, hkN, hkfix⟩ := chain_bound h hx
  have := chase_eq N x k (by omega) hkfix
  unfold repOf
  rw [this]
  exact ⟨⟨k, rfl⟩, hkfix⟩

theorem repOf_eq_of_reach {N : Nat} {root : List Nat} (h : UFInv N root) {x r : Nat}
    (hx : x < N) (hr : RootReach root x r) : repOf N root x = r :=
  RootReach_unique (repOf_reach h hx) hr

theorem getD_set_eq {l : List Nat} {i j a : Nat} :
    (l.set i a).getD j 0 = if i = j ∧ i < l.length then a else l.getD j 0 := by
  rw [List.getD_eq_getElem?_getD, List.getD_eq_getElem?_getD, List.getElem?_set]
  by_cases h1 : i = j
  · subst h1
    by_cases h2 : i < l.length
    · simp [h2]
    · simp only [if_pos rfl, if_neg h2, Option.getD_none]
      rw [List.getElem?_eq_none (by omega)]
      simp [h2]
  · simp [h1]

theorem getD_set_self {l : List Nat} {i a : Nat} (hi : i < l.length) :
    (l.set i a).getD i 0 = a := by
  rw [getD_set_eq]
  simp [hi]

theorem getD_set_other {l : List Nat} {i j a : Nat} (hij : i ≠ j) :
    (l.set i a).getD j 0 = l.getD j 0 := by
  rw [getD_set_eq]
  simp [hij]

theorem set_self_eq {l : List Nat} {i v : Nat} (hlen : i < l.length)
    (hi : l.getD i 0 = v) : l.set i v = l := by
  apply List.ext_getElem?
  intro j
  rw [List.getElem?_set]
  by_cases hij : i = j
  · subst hij
    rw [if_pos rfl, if_pos hlen, List.getElem?_eq_getElem hlen]
    rw [List.getD_eq_getElem l 0 hlen] at hi
    rw [hi]
  · simp [hij]

theorem RootReach_lt {N : Nat} {root : List Nat} (h : UFInv N root) {x r : Nat}
    (hx : x < N) (hr : RootReach root x r) : r < N := by
  obtain ⟨⟨k, hk⟩, _⟩ := hr
  rw [← hk]
  exact iterR_bounded h.bounded hx k

theorem reach_compress_fwd {root : List Nat} {x r : Nat} (hxlen : x < root.length)
    (hr : RootReach root x r) (hxr : x ≠ r) :
    ∀ (k z v : Nat), iterR root k z = v → isFix root v →
      RootReach (root.set x r) z v := by
  intro k
  induction k with
  | zero =>
    intro z v hzv hfv
    cases hzv
    have hvx : z ≠ x := by
      intro hzx
      subst hzx
      exact hxr (RootReach_unique hr (RootReach_fix_self hfv)).symm
    refine RootReach_fix_self ?_
    unfold isFix
    rw [getD_set_other (fun hh => hvx hh.symm)]
    exact hfv
  | succ n ih =>
    intro z v hzv hfv
    by_cases hzx : z = x
    · subst hzx
      have hvr : v = r := RootReach_unique ⟨⟨n + 1, hzv⟩, hfv⟩ hr
      subst hvr
      refine ⟨⟨1, ?_⟩, ?_⟩
      · show (root.set z v).getD z 0 = v
        exact getD_set_self hxlen
      · unfold isFix
        rw [getD_set_other hxr]
        exact hr.2
    · have hstep : iterR root n (root.getD z 0) = v := by
        rw [iterR_shift]
        exact hzv
      have hrec := ih (root.getD z 0) v hstep hfv
      have hgz : (root.set x r).getD z 0 = root.getD z 0 :=
        getD_set_other (fun hh => hzx hh.symm)
      exact RootReach_step (by rw [hgz]; exact hrec)

theorem reach_compress_bwd {root : List Nat} {x r : Nat} (hxlen : x < root.length)
    (hr : RootReach root x r) (hxr : x ≠ r) :
    ∀ (k z v : Nat), iterR (root.set x r) k z = v → isFix (root.set x r) v →
      RootReach root z v := by
  intro k
  induction k with
  | zero =>
    intro z v hzv hfv
    replace hzv : z = v := hzv
    subst hzv
    replace hfv : isFix (root.set x r) z := hfv
    have hvx : z ≠ x := by
      intro hzx
      subst hzx
      unfold isFix at hfv
      rw [getD_set_self hxlen] at hfv
      exact hxr hfv.symm
    refine RootReach_fix_self ?_
    unfold isFix at hfv
    rw [getD_set_other (fun hh => hvx hh.symm)] at hfv
    exact hfv
  | succ n ih =>
    intro z v hzv hfv
    have hzv2 : iterR (root.set x r) n ((root.set x r).getD z 0) = v := by
      rw [iterR_shift]
      exact hzv
    by_cases hzx : z = x
    · subst hzx
      rw [getD_set_self hxlen] at hzv2
      have hfr2 : isFix (root.set z r) r := by
        unfold isFix
        rw [getD_set_other hxr]
        exact hr.2
      have hstab : iterR (root.set z r) n r = r := by
        have h0 : isFix (root.set z r) (iterR (root.set z r) 0 r) := hfr2
        have := fix_stable (root.set z r) r h0 n
        simpa [iterR] using this
      rw [hstab] at hzv2
      subst hzv2
      exact hr
    · have hgz : (root.set x r).getD z 0 = root.getD z 0 :=
        getD_set_other (fun hh => hzx hh.symm)
      rw [hgz] at hzv2
      exact RootReach_step (ih (root.getD z 0) v hzv2 hfv)

theorem compress_spec {N : Nat} {root : List Nat} (h : UFInv N root) {x r : Nat}
    (hx : x < N) (hr : RootReach root x r) :
    UFInv N (root.set x r) ∧
    ∀ z v, RootReach (root.set x r) z v ↔ RootReach root z v := by
  have hxlen : x < root.length := by rw [h.len]; exact hx
  by_cases hxr : x = r
  · have hfix : isFix root x := by
      rw [hxr]
      exact hr.2
    rw [show root.set x r = root from by rw [← hxr] at hr ⊢; exact set_self_eq hxlen hfix]
    exact ⟨h, fun z v => Iff.rfl⟩
  · have hiff : ∀ z v, RootReach (root.set x r) z v ↔ RootReach root z v := by
      intro z v
      constructor
      · rintro ⟨⟨k, hk⟩, hf⟩
        exact reach_compress_bwd hxlen hr hxr k z v hk hf
      · rintro ⟨⟨k, hk⟩, hf⟩
        exact reach_compress_fwd hxlen hr hxr k z v hk hf
    refine ⟨⟨?_, ?_, ?_⟩, hiff⟩
    · rw [List.length_set]
      exact h.len
    · intro z hz
      by_cases hzx : z = x
      · subst hzx
        rw [getD_set_self hxlen]
        exact RootReach_lt h hx hr
      · rw [getD_set_other (fun hh => hzx hh.symm)]
        exact h.bounded z hz
    · intro z hz
      obtain ⟨k, hk⟩ := h.reaches z hz
      obtain ⟨⟨k2, hk2⟩, hf2⟩ := (hiff z (iterR root k z)).2 ⟨⟨k, rfl⟩, hk⟩
      exact ⟨k2, by rw [hk2]; exact hf2⟩

theorem findAux {N : Nat} :
    ∀ (fuel : Nat) (root : List Nat) (x : Nat), UFInv N root → x < N →
      (∃ k, k < fuel ∧ isFix root (iterR root k x)) →
      ∃ r root2, find fuel root x = some (r, root2) ∧ RootReach root x r ∧
        UFInv N root2 ∧ ∀ z v, RootReach root2 z v ↔ RootReach root z v := by
  intro fuel
  induction fuel with
  | zero =>
    rintro root x _ _ ⟨k, hk, _⟩
    omega
  | succ n ih =>
    rintro root x h hx ⟨k, hkn, hkfix⟩
    have hxlen : x < root.length := by rw [h.len]; exact hx
    have hsome : root[x]? = some (root.getD x 0) := by
      rw [List.getElem?_eq_getElem hxlen, List.getD_eq_getElem root 0 hxlen]
    have heval : find (n + 1) root x =
        if root.getD x 0 = x then some (x, root)
        else
          match find n root (root.getD x 0) with
          | none => none
          | some (r1, root1) => some (r1, root1.set x r1) := by
      simp only [find, hsome]
    by_cases hfx : root.getD x 0 = x
    · refine ⟨x, root, ?_, RootReach_fix_self hfx, h, fun z v => Iff.rfl⟩
      rw [heval, if_pos hfx]
    · have hk0 : k ≠ 0 := by
        intro hk0
        subst hk0
        exact hfx hkfix
      obtain ⟨k0, rfl⟩ : ∃ k0, k = k0 + 1 := ⟨k - 1, by omega⟩
      have hfix2 : isFix root (iterR root k0 (root.getD x 0)) := by
        rw [iterR_shift]
        exact hkfix
      have hpx : root.getD x 0 < N := h.bounded x hx
      obtain ⟨r, root1, hfind1, hr1, hinv1, hiff1⟩ :=
        ih root (root.getD x 0) h hpx ⟨k0, by omega, hfix2⟩
      have hrx : RootReach root x r := RootReach_step hr1
      have hr1x : RootReach root1 x r := (hiff1 x r).2 hrx
      obtain ⟨hinv2, hiff2⟩ := compress_spec hinv1 hx hr1x
      refine ⟨r, root1.set x r, ?_, hrx, hinv2, ?_⟩
      · rw [heval, if_neg hfx, hfind1]
      · intro z v
        rw [hiff2 z v, hiff1 z v]

theorem find_spec {N : Nat} {root : List Nat} (h : UFInv N root) {x : Nat}
    (hx : x < N) :
    ∃ r root2, find N root x = some (r, root2) ∧ RootReach root x r ∧
      UFInv N root2 ∧ ∀ z v, RootReach root2 z v ↔ RootReach root z v := by
  obtain ⟨k, hkN, hkfix⟩ := chain_bound h hx
  exact findAux N root x h hx ⟨k, hkN, hkfix⟩

theorem reach_union_to_old {root : List Nat} {ra rb : Nat} (hralen : ra < root.length)
    (hfa : isFix root ra) (hfb : isFix root rb) (hne : ra ≠ rb) :
    ∀ (k z v : Nat), iterR (root.set ra rb) k z = v → isFix (root.set ra rb) v →
      ∃ v0, RootReach root z v0 ∧ v = if v0 = ra then rb else v0 := by
  intro k
  induction k with
  | zero =>
    intro z v hzv hfv
    replace hzv : z = v := hzv
    subst hzv
    replace hfv : isFix (root.set ra rb) z := hfv
    have hvra : z ≠ ra := by
      intro hzr
      subst hzr
      unfold isFix at hfv
      rw [getD_set_self hralen] at hfv
      exact hne hfv.symm
    refine ⟨z, RootReach_fix_self ?_, by simp [hvra]⟩
    unfold isFix at hfv
    rw [getD_set_other (fun hh => hvra hh.symm)] at hfv
    exact hfv
  | succ n ih =>
    intro z v hzv hfv
    have hzv2 : iterR (root.set ra rb) n ((root.set ra rb).getD z 0) = v := by
      rw [iterR_shift]
      exact hzv
    by_cases hzr : z = ra
    · subst hzr
      rw [getD_set_self hralen] at hzv2
      have hfb2 : isFix (root.set z rb) rb := by
        unfold isFix
        rw [getD_set_other hne]
        exact hfb
      have hstab : iterR (root.set z rb) n rb = rb := by
        have h0 : isFix (root.set z rb) (iterR (root.set z rb) 0 rb) := hfb2
        have := fix_stable (root.set z rb) rb h0 n
        simpa [iterR] using this
      rw [hstab] at hzv2
      subst hzv2
      exact ⟨z, RootReach_fix_self hfa, by simp⟩
    · have hgz : (root.set ra rb).getD z 0 = root.getD z 0 :=
        getD_set_other (fun hh => hzr hh.symm)
      rw [hgz] at hzv2
      obtain ⟨v0, hv0, hite⟩ := ih (root.getD z 0) v hzv2 hfv
      exact ⟨v0, RootReach_step hv0, hite⟩

theorem reach_union_hits_ra {root : List Nat} {ra rb : Nat} (hralen : ra < root.length)
    (hfb : isFix root rb) (hne : ra ≠ rb) :
    ∀ (k z : Nat), iterR root k z = ra → RootReach (root.set ra rb) z rb := by
  intro k
  induction k with
  | zero =>
    intro z hz
    replace hz : z = ra := hz
    subst hz
    refine ⟨⟨1, ?_⟩, ?_⟩
    · show (root.set z rb).getD z 0 = rb
      exact getD_set_self hralen
    · unfold isFix
      rw [getD_set_other hne]
      exact hfb
  | succ n ih =>
    intro z hz
    by_cases hzr : z = ra
    · subst hzr
      refine ⟨⟨1, ?_⟩, ?_⟩
      · show (root.set z rb).getD z 0 = rb
        exact getD_set_self hralen
      · unfold isFix
        rw [getD_set_other hne]
        exact hfb
    · have hz2 : iterR root n (root.getD z 0) = ra := by
        rw [iterR_shift]
        exact hz
      have hgz : (root.set ra rb).getD z 0 = root.getD z 0 :=
        getD_set_other (fun hh => hzr hh.symm)
      exact RootReach_step (by rw [hgz]; exact ih (root.getD z 0) hz2)

theorem reach_union_avoids_ra {root : List Nat} {ra rb : Nat} (hralen : ra < root.length)
    (hfa : isFix root ra) (hne : ra ≠ rb) :
    ∀ (k z v : Nat), iterR root k z = v → isFix root v → v ≠ ra →
      RootReach (root.set ra rb) z v := by
  intro k
  induction k with
  | zero =>
    intro z v hzv hfv hvra
    replace hzv : z = v := hzv
    subst hzv
    refine RootReach_fix_self ?_
    unfold isFix
    rw [getD_set_other (fun hh => hvra hh.symm)]
    exact hfv
  | succ n ih =>
    intro z v hzv hfv hvra
    by_cases hzr : z = ra
    · subst hzr
      have h0 : isFix root (iterR root 0 z) := hfa
      have := fix_stable root z h0 (n + 1)
      simp only [Nat.zero_add] at this
      rw [hzv] at this
      replace this : v = z := this
      exact absurd this hvra
    · have hz2 : iterR root n (root.getD z 0) = v := by
        rw [iterR_shift]
        exact hzv
      have hgz : (root.set ra rb).getD z 0 = root.getD z 0 :=
        getD_set_other (fun hh => hzr hh.symm)
      exact RootReach_step (by rw [hgz]; exact ih (root.getD z 0) v hz2 hfv hvra)

theorem union_spec {N : Nat} {root : List Nat} (h : UFInv N root) {ra rb : Nat}
    (hra : ra < N) (hrb : rb < N) (hfa : isFix root ra) (hfb : isFix root rb)
    (hne : ra ≠ rb) :
    UFInv N (root.set ra rb) ∧
    ∀ z v, RootReach (root.set ra rb) z v ↔
      ∃ v0, RootReach root z v0 ∧ v = if v0 = ra then rb else v0 := by
  have hralen : ra < root.length := by rw [h.len]; exact hra
  have hiff : ∀ z v, RootReach (root.set ra rb) z v ↔
      ∃ v0, RootReach root z v0 ∧ v = if v0 = ra then rb else v0 := by
    intro z v
    constructor
    · rintro ⟨⟨k, hk⟩, hf⟩
      exact reach_union_to_old hralen hfa hfb hne k z v hk hf
    · rintro ⟨v0, ⟨⟨k, hk⟩, hf0⟩, hite⟩
      by_cases hv0 : v0 = ra
      · rw [if_pos hv0] at hite
        rw [hite]
        rw [hv0] at hk
        exact reach_union_hits_ra hralen hfb hne k z hk
      · rw [if_neg hv0] at hite
        rw [hite]
        exact reach_union_avoids_ra hralen hfa hne k z v0 hk hf0 hv0
  refine ⟨⟨?_, ?_, ?_⟩, hiff⟩
  · rw [List.length_set]
    exact h.len
  · intro z hz
    by_cases hzr : z = ra
    · subst hzr
      rw [getD_set_self hralen]
      exact hrb
    · rw [getD_set_other (fun hh => hzr hh.symm)]
      exact h.bounded z hz
  · intro z hz
    obtain ⟨k, hk⟩ := h.reaches z hz
    have hold : RootReach root z (iterR root k z) := ⟨⟨k, rfl⟩, hk⟩
    obtain ⟨⟨k2, hk2⟩, hf2⟩ := (hiff z _).2
      ⟨iterR root k z, hold, rfl⟩
    exact ⟨k2, by rw [hk2]; exact hf2⟩

theorem join_spec {N : Nat} {root : List Nat} (h : UFInv N root) {a b : Nat}
    (ha : a < N) (hb : b < N) {ra rb : Nat} (hra : RootReach root a ra)
    (hrb : RootReach root b rb) (hne : ra ≠ rb) :
    ∃ root5, join N root a b = some root5 ∧ UFInv N root5 ∧
      ∀ z v, RootReach root5 z v ↔
        ∃ v0, RootReach root z v0 ∧ v = if v0 = ra then rb else v0 := by
  obtain ⟨rb1, root3, hfb, hrb3, hinv3, hiff3⟩ := find_spec h hb
  have hrb1 : rb1 = rb := RootReach_unique hrb3 hrb
  subst hrb1
  have hfixb3 : isFix root3 rb1 := ((hiff3 b rb1).2 hrb).2
  have hrbN : rb1 < N := RootReach_lt h hb hrb
  have hraN : ra < N := RootReach_lt h ha hra
  have hrblen : rb1 < root3.length := by rw [hinv3.len]; exact hrbN
  have ht : root3[rb1]? = some rb1 := by
    rw [List.getElem?_eq_getElem hrblen]
    have hg := List.getD_eq_getElem root3 0 hrblen
    unfold isFix at hfixb3
    rw [hg] at hfixb3
    rw [hfixb3]
  obtain ⟨ra1, root4, hfa, hra4, hinv4, hiff4⟩ := find_spec hinv3 ha
  have hra1 : ra1 = ra := RootReach_unique ((hiff3 a ra1).1 hra4) hra
  subst hra1
  have hfixa4 : isFix root4 ra1 := ((hiff4 a ra1).2 ((hiff3 a ra1).2 hra)).2
  have hfixb4 : isFix root4 rb1 := ((hiff4 b rb1).2 ((hiff3 b rb1).2 hrb)).2
  obtain ⟨hinv5, hiff5⟩ := union_spec hinv4 hraN hrbN hfixa4 hfixb4 hne
  refine ⟨root4.set ra1 rb1, ?_, hinv5, ?_⟩
  · unfold join
    rw [hfb]
    simp [ht, hfa]
  · intro z v
    rw [hiff5 z v]
    constructor
    · rintro ⟨v0, hv0, hite⟩
      exact ⟨v0, (hiff3 _ _).1 ((hiff4 _ _).1 hv0), hite⟩
    · rintro ⟨v0, hv0, hite⟩
      exact ⟨v0, (hiff4 _ _).2 ((hiff3 _ _).2 hv0), hite⟩

/-- Safety of the Kruskal loop: with all endpoints in range and a valid
union-find state, the loop never fails and produces exactly one event per
edge, in order. -/
theorem kruskalLoop_safe {N : Nat} :
    ∀ (pr : List KEdge) (root : List Nat), UFInv N root →
      (∀ e ∈ pr, e.1 < N ∧ e.2.1 < N) →
      ∃ tr, kruskalLoop N pr root = some tr ∧ tr.map Prod.fst = pr := by
  intro pr
  induction pr with
  | nil =>
    intro root _ _
    exact ⟨[], rfl, rfl⟩
  | cons e rest ih =>
    intro root h hall
    have he := hall e (List.mem_cons_self _ _)
    obtain ⟨ra, root1, hfa, hra, hinv1, hiff1⟩ := find_spec h he.1
    obtain ⟨rb, root2, hfb, hrb1, hinv2, hiff2⟩ := find_spec hinv1 he.2
    have hra2 : RootReach root2 e.1 ra := (hiff2 _ _).2 ((hiff1 _ _).2 hra)
    have hrb2 : RootReach root2 e.2.1 rb := (hiff2 _ _).2 hrb1
    by_cases hcond : ra = rb
    · obtain ⟨tr, hloop, hmap⟩ :=
        ih root2 hinv2 (fun x hx => hall x (List.mem_cons_of_mem _ hx))
      refine ⟨(e, false) :: tr, ?_, by simp [hmap]⟩
      simp [kruskalLoop, hfa, hfb, hcond, hloop]
    · obtain ⟨root5, hjoin, hinv5, hiff5⟩ := join_spec hinv2 he.1 he.2 hra2 hrb2 hcond
      obtain ⟨tr, hloop, hmap⟩ :=
        ih root5 hinv5 (fun x hx => hall x (List.mem_cons_of_mem _ hx))
      refine ⟨(e, true) :: tr, ?_, by simp [hmap]⟩
      simp [kruskalLoop, hfa, hfb, hcond, hjoin, hloop]

theorem UFInv_range (N : Nat) : UFInv N (List.range N) := by
  have hfix : ∀ x, x < N → (List.range N).getD x 0 = x := by
    intro x hx
    rw [List.getD_eq_getElem _ 0 (by simpa using hx)]
    simp
  refine ⟨by simp, ?_, ?_⟩
  · intro x hx
    rw [hfix x hx]
    exact hx
  · intro x hx
    refine ⟨0, ?_⟩
    show (List.range N).getD x 0 = x
    exact hfix x hx

/-! ## C7: safety of `kruskals` and its limits -/

/-- C7 counterexample: node identifiers are used directly as indices into
`root = list(range(N))`, so an identifier outside `0..N-1` (here node `5`
with `N = 2`, a gap left by the editor's monotone naming) makes `find` read
out of bounds and the engine fails (Python `IndexError`) instead of
completing. -/
theorem kruskals_gap_identifier_fails : kruskalsRun 2 [(0, 5, 7)] = none := by decide

/-- C7 amended: if every endpoint lies in `0..N-1` (identifiers may repeat
across edges; self-loops and duplicate edges are allowed), `kruskals`
completes without failure and returns exactly one accept/reject event per
input edge — the events list the sorted edges in order — and in particular a
disconnected input causes no failure. -/
theorem kruskals_in_range_safe (N : Nat) (ews : List KEdge)
    (h : ∀ e ∈ ews, e.1 < N ∧ e.2.1 < N) :
    ∃ tr, kruskalsRun N ews = some tr ∧ tr.map Prod.fst = sortEdges ews ∧
      tr.length = ews.length := by
  have hall : ∀ e ∈ sortEdges ews, e.1 < N ∧ e.2.1 < N := by
    intro e hee
    exact h e ((sortEdges_perm ews).mem_iff.1 hee)
  obtain ⟨tr, hrun, hmap⟩ :=
    kruskalLoop_safe (sortEdges ews) (List.range N) (UFInv_range N) hall
  refine ⟨tr, hrun, hmap, ?_⟩
  have hlen : tr.length = (sortEdges ews).length := by
    rw [← hmap, List.length_map]
  rw [hlen, (sortEdges_perm ews).length_eq]

/-- Witness for the amended C7 at the specification's concrete edge list
(extended with a disconnected extra node: `N = 5`). -/
theorem kruskals_in_range_safe_witness :
    (∀ e ∈ [((0 : Nat), (1 : Nat), (5 : Nat)), (1, 2, 3), (2, 3, 1), (0, 3, 10)],
      e.1 < 5 ∧ e.2.1 < 5) ∧
    ∃ tr, kruskalsRun 5 [(0, 1, 5), (1, 2, 3), (2, 3, 1), (0, 3, 10)] = some tr ∧
      tr.map Prod.fst = sortEdges [(0, 1, 5), (1, 2, 3), (2, 3, 1), (0, 3, 10)] ∧
      tr.length = [((0 : Nat), (1 : Nat), (5 : Nat)), (1, 2, 3), (2, 3, 1), (0, 3, 10)].length :=
  ⟨by decide, kruskals_in_range_safe 5 _ (by decide)⟩

/-! ## Edge-list connectivity lemmas (towards C3) -/

theorem estep_symm {ews : List KEdge} {u v : Nat} (h : estep ews u v) : estep ews v u := by
  obtain ⟨w, h⟩ := h
  exact ⟨w, h.symm⟩

theorem econn_symm {ews : List KEdge} {u v : Nat} (h : econn ews u v) : econn ews v u :=
  Relation.ReflTransGen.symmetric (fun a b hab => estep_symm hab) h

theorem econn_nil {x y : Nat} (h : econn [] x y) : x = y := by
  induction h with
  | refl => rfl
  | tail hab hbc ih =>
    obtain ⟨w, hw⟩ := hbc
    rcases hw with hw | hw <;> exact absurd hw (List.not_mem_nil _)

theorem estep_append_one {done : List KEdge} {e : KEdge} {u v : Nat} :
    estep (done ++ [e]) u v ↔
      estep done u v ∨ (u = e.1 ∧ v = e.2.1) ∨ (u = e.2.1 ∧ v = e.1) := by
  obtain ⟨a, b, w0⟩ := e
  unfold estep
  constructor
  · rintro ⟨w, hw | hw⟩
    · rcases List.mem_append.1 hw with hw | hw
      · exact Or.inl ⟨w, Or.inl hw⟩
      · simp [Prod.ext_iff] at hw
        exact Or.inr (Or.inl ⟨hw.1, hw.2.1⟩)
    · rcases List.mem_append.1 hw with hw | hw
      · exact Or.inl ⟨w, Or.inr hw⟩
      · simp [Prod.ext_iff] at hw
        exact Or.inr (Or.inr ⟨hw.2.1, hw.1⟩)
  · rintro (⟨w, hw | hw⟩ | ⟨h1, h2⟩ | ⟨h1, h2⟩)
    · exact ⟨w, Or.inl (List.mem_append.2 (Or.inl hw))⟩
    · exact ⟨w, Or.inr (List.mem_append.2 (Or.inl hw))⟩
    · subst h1
      subst h2
      exact ⟨w0, Or.inl (List.mem_append.2 (Or.inr (by simp)))⟩
    · subst h1
      subst h2
      exact ⟨w0, Or.inr (List.mem_append.2 (Or.inr (by simp)))⟩

theorem econn_mono_append {done : List KEdge} {e : KEdge} {x y : Nat}
    (h : econn done x y) : econn (done ++ [e]) x y :=
  h.mono (fun a b hab => estep_append_one.2 (Or.inl hab))

theorem econn_append_one {done : List KEdge} {e : KEdge} {x y : Nat} :
    econn (done ++ [e]) x y ↔
      econn done x y ∨ (econn done x e.1 ∧ econn done e.2.1 y) ∨
      (econn done x e.2.1 ∧ econn done e.1 y) := by
  constructor
  · intro h
    induction h with
    | refl => exact Or.inl Relation.ReflTransGen.refl
    | tail hxb hbc ih =>
      rcases estep_append_one.1 hbc with hs | ⟨h1, h2⟩ | ⟨h1, h2⟩
      · rcases ih with h0 | ⟨ha1, ha2⟩ | ⟨ha1, ha2⟩
        · exact Or.inl (h0.tail hs)
        · exact Or.inr (Or.inl ⟨ha1, ha2.tail hs⟩)
        · exact Or.inr (Or.inr ⟨ha1, ha2.tail hs⟩)
      · subst h1
        subst h2
        rcases ih with h0 | ⟨ha1, ha2⟩ | ⟨ha1, ha2⟩
        · exact Or.inr (Or.inl ⟨h0, Relation.ReflTransGen.refl⟩)
        · exact Or.inr (Or.inl ⟨ha1, Relation.ReflTransGen.refl⟩)
        · exact Or.inl ha1
      · subst h1
        subst h2
        rcases ih with h0 | ⟨ha1, ha2⟩ | ⟨ha1, ha2⟩
        · exact Or.inr (Or.inr ⟨h0, Relation.ReflTransGen.refl⟩)
        · exact Or.inl ha1
        · exact Or.inr (Or.inr ⟨ha1, Relation.ReflTransGen.refl⟩)
  · rintro (h | ⟨h1, h2⟩ | ⟨h1, h2⟩)
    · exact econn_mono_append h
    · have hstep : estep (done ++ [e]) e.1 e.2.1 :=
        estep_append_one.2 (Or.inr (Or.inl ⟨rfl, rfl⟩))
      exact ((econn_mono_append h1).tail hstep).trans (econn_mono_append h2)
    · have hstep : estep (done ++ [e]) e.2.1 e.1 :=
        estep_append_one.2 (Or.inr (Or.inr ⟨rfl, rfl⟩))
      exact ((econn_mono_append h1).tail hstep).trans (econn_mono_append h2)

theorem econn_perm_iff {l1 l2 : List KEdge} (hp : l1.Perm l2) (x y : Nat) :
    econn l1 x y ↔ econn l2 x y := by
  have hstep : ∀ u v, estep l1 u v → estep l2 u v := by
    rintro u v ⟨w, hw | hw⟩
    · exact ⟨w, Or.inl (hp.mem_iff.1 hw)⟩
    · exact ⟨w, Or.inr (hp.mem_iff.1 hw)⟩
  have hstep2 : ∀ u v, estep l2 u v → estep l1 u v := by
    rintro u v ⟨w, hw | hw⟩
    · exact ⟨w, Or.inl (hp.mem_iff.2 hw)⟩
    · exact ⟨w, Or.inr (hp.mem_iff.2 hw)⟩
  exact ⟨fun h => h.mono hstep, fun h => h.mono hstep2⟩

/-! ## Counting Kruskal's accepted edges (towards C3) -/

theorem repOf_congr {N : Nat} {root root2 : List Nat} (h : UFInv N root)
    (h2 : UFInv N root2) (hiff : ∀ z v, RootReach root2 z v ↔ RootReach root z v)
    {z : Nat} (hz : z < N) : repOf N root2 z = repOf N root z :=
  RootReach_unique ((hiff z _).1 (repOf_reach h2 hz)) (repOf_reach h hz)
    |>.symm ▸ rfl

theorem classCount_congr {N : Nat} {root root2 : List Nat} (h : UFInv N root)
    (h2 : UFInv N root2) (hiff : ∀ z v, RootReach root2 z v ↔ RootReach root z v) :
    classCount N root2 = classCount N root := by
  unfold classCount
  congr 1
  apply Finset.image_congr
  intro z hz
  simp only [Finset.coe_range, Set.mem_Iio] at hz
  exact repOf_congr h h2 hiff hz

theorem sameRep_iff_repOf {N : Nat} {root : List Nat} (h : UFInv N root) {x y : Nat}
    (hx : x < N) (hy : y < N) :
    sameRep root x y ↔ repOf N root x = repOf N root y := by
  constructor
  · rintro ⟨r, hxr, hyr⟩
    rw [repOf_eq_of_reach h hx hxr, repOf_eq_of_reach h hy hyr]
  · intro heq
    refine ⟨repOf N root x, repOf_reach h hx, ?_⟩
    rw [heq]
    exact repOf_reach h hy

theorem repOf_union {N : Nat} {root root5 : List Nat} {ra rb : Nat}
    (h : UFInv N root) (h5 : UFInv N root5)
    (hiff : ∀ z v, RootReach root5 z v ↔
      ∃ v0, RootReach root z v0 ∧ v = if v0 = ra then rb else v0)
    {z : Nat} (hz : z < N) :
    repOf N root5 z = if repOf N root z = ra then rb else repOf N root z := by
  obtain ⟨v0, hv0, hite⟩ := (hiff z _).1 (repOf_reach h5 hz)
  have hv0e : v0 = repOf N root z := (repOf_eq_of_reach h hz hv0).symm
  rw [← hv0e]
  exact hite

theorem classCount_union {N : Nat} {root root5 : List Nat} {ra rb : Nat}
    (h : UFInv N root) (h5 : UFInv N root5) (hra : ra < N) (hrb : rb < N)
    (hfa : isFix root ra) (hfb : isFix root rb) (hne : ra ≠ rb)
    (hiff : ∀ z v, RootReach root5 z v ↔
      ∃ v0, RootReach root z v0 ∧ v = if v0 = ra then rb else v0) :
    classCount N root5 + 1 = classCount N root := by
  have hrepa : repOf N root ra = ra := repOf_eq_of_reach h hra (RootReach_fix_self hfa)
  have hrepb : repOf N root rb = rb := repOf_eq_of_reach h hrb (RootReach_fix_self hfb)
  have himg : (Finset.range N).image (repOf N root5) =
      ((Finset.range N).image (repOf N root)).erase ra := by
    ext v
    simp only [Finset.mem_image, Finset.mem_erase, Finset.mem_range]
    constructor
    · rintro ⟨z, hz, hrep⟩
      rw [repOf_union h h5 hiff hz] at hrep
      by_cases hcz : repOf N root z = ra
      · rw [if_pos hcz] at hrep
        rw [← hrep]
        exact ⟨fun hh => hne hh.symm, rb, hrb, hrepb⟩
      · rw [if_neg hcz] at hrep
        refine ⟨?_, z, hz, hrep⟩
        rw [← hrep]
        exact hcz
    · rintro ⟨hvra, z, hz, hrep⟩
      refine ⟨z, hz, ?_⟩
      rw [repOf_union h h5 hiff hz, hrep, if_neg hvra]
  have hmem : ra ∈ (Finset.range N).image (repOf N root) :=
    Finset.mem_image.2 ⟨ra, Finset.mem_range.2 hra, hrepa⟩
  have hpos : 0 < ((Finset.range N).image (repOf N root)).card :=
    Finset.card_pos.2 ⟨ra, hmem⟩
  unfold classCount
  rw [himg, Finset.card_erase_of_mem hmem]
  omega

/-- Main counting invariant for the Kruskal loop: the number of accepted
edges plus the number of surviving representative classes is constant, and
the union-find equivalence tracks connectivity of the processed edges. -/
theorem kruskalLoop_count {N : Nat} :
    ∀ (pr : List KEdge) (root : List Nat) (done : List KEdge), UFInv N root →
      (∀ e ∈ pr, e.1 < N ∧ e.2.1 < N) →
      (∀ x y, x < N → y < N → (sameRep root x y ↔ econn done x y)) →
      ∃ tr rootF, kruskalLoop N pr root = some tr ∧ UFInv N rootF ∧
        acceptCount tr + classCount N rootF = classCount N root ∧
        (∀ x y, x < N → y < N → (sameRep rootF x y ↔ econn (done ++ pr) x y)) := by
  intro pr
  induction pr with
  | nil =>
    intro root done h _ hE
    exact ⟨[], root, rfl, h, by simp [acceptCount], by simpa using hE⟩
  | cons e rest ih =>
    intro root done h hall hE
    have he := hall e (List.mem_cons_self _ _)
    have hrest : ∀ x ∈ rest, x.1 < N ∧ x.2.1 < N :=
      fun x hx => hall x (List.mem_cons_of_mem _ hx)
    obtain ⟨ra, root1, hfa, hra, hinv1, hiff1⟩ := find_spec h he.1
    obtain ⟨rb, root2, hfb, hrb1, hinv2, hiff2⟩ := find_spec hinv1 he.2
    have hiff12 : ∀ z v, RootReach root2 z v ↔ RootReach root z v :=
      fun z v => (hiff2 z v).trans (hiff1 z v)
    have hrb : RootReach root e.2.1 rb := (hiff1 _ _).1 hrb1
    have hclass2 : classCount N root2 = classCount N root :=
      classCount_congr h hinv2 hiff12
    have hE2 : ∀ x y, x < N → y < N → (sameRep root2 x y ↔ econn done x y) := by
      intro x y hx hy
      rw [← hE x y hx hy]
      constructor <;> rintro ⟨r, h1, h2⟩
      · exact ⟨r, (hiff12 _ _).1 h1, (hiff12 _ _).1 h2⟩
      · exact ⟨r, (hiff12 _ _).2 h1, (hiff12 _ _).2 h2⟩
    have happrest : (done ++ [e]) ++ rest = done ++ e :: rest := by simp
    by_cases hcond : ra = rb
    · have hab : econn done e.1 e.2.1 := by
        refine (hE _ _ he.1 he.2).1 ⟨ra, hra, ?_⟩
        rw [hcond]
        exact hrb
      have hEstep : ∀ x y, x < N → y < N →
          (sameRep root2 x y ↔ econn (done ++ [e]) x y) := by
        intro x y hx hy
        rw [hE2 x y hx hy, econn_append_one]
        constructor
        · exact Or.inl
        · rintro (h0 | ⟨h1, h2⟩ | ⟨h1, h2⟩)
          · exact h0
          · exact h1.trans (hab.trans h2)
          · exact h1.trans ((econn_symm hab).trans h2)
      obtain ⟨tr, rootF, hloop, hinvF, hcount, hEF⟩ :=
        ih root2 (done ++ [e]) hinv2 hrest hEstep
      refine ⟨(e, false) :: tr, rootF, ?_, hinvF, ?_, ?_⟩
      · simp [kruskalLoop, hfa, hfb, hcond, hloop]
      · have hacc : acceptCount ((e, false) :: tr) = acceptCount tr := by
          simp [acceptCount]
        omega
      · intro x y hx hy
        rw [hEF x y hx hy, happrest]
    · have hra2 : RootReach root2 e.1 ra := (hiff12 _ _).2 hra
      have hrb2 : RootReach root2 e.2.1 rb := (hiff2 _ _).2 hrb1
      obtain ⟨root5, hjoin, hinv5, hiff5⟩ := join_spec hinv2 he.1 he.2 hra2 hrb2 hcond
      have hiff5x : ∀ z v, RootReach root5 z v ↔
          ∃ v0, RootReach root z v0 ∧ v = if v0 = ra then rb else v0 := by
        intro z v
        rw [hiff5 z v]
        constructor <;> rintro ⟨v0, hv0, hite⟩
        · exact ⟨v0, (hiff12 _ _).1 hv0, hite⟩
        · exact ⟨v0, (hiff12 _ _).2 hv0, hite⟩
      have hraN : ra < N := RootReach_lt h he.1 hra
      have hrbN : rb < N := RootReach_lt h he.2 hrb
      have hclass5 : classCount N root5 + 1 = classCount N root :=
        classCount_union h hinv5 hraN hrbN hra.2 hrb.2 hcond hiff5x
      have hrepa : repOf N root e.1 = ra := repOf_eq_of_reach h he.1 hra
      have hrepb : repOf N root e.2.1 = rb := repOf_eq_of_reach h he.2 hrb
      have hE5 : ∀ x y, x < N → y < N →
          (sameRep root5 x y ↔ econn (done ++ [e]) x y) := by
        intro x y hx hy
        rw [sameRep_iff_repOf hinv5 hx hy, repOf_union h hinv5 hiff5x hx,
          repOf_union h hinv5 hiff5x hy, econn_append_one,
          ← hE x y hx hy, ← hE x e.1 hx he.1, ← hE e.2.1 y he.2 hy,
          ← hE x e.2.1 hx he.2, ← hE e.1 y he.1 hy,
          sameRep_iff_repOf h hx hy, sameRep_iff_repOf h hx he.1,
          sameRep_iff_repOf h he.2 hy, sameRep_iff_repOf h hx he.2,
          sameRep_iff_repOf h he.1 hy, hrepa, hrepb]
        by_cases h1 : repOf N root x = ra <;> by_cases h2 : repOf N root y = ra <;>
          simp [h1, h2] <;> omega
      obtain ⟨tr, rootF, hloop, hinvF, hcount, hEF⟩ :=
        ih root5 (done ++ [e]) hinv5 hrest hE5
      refine ⟨(e, true) :: tr, rootF, ?_, hinvF, ?_, ?_⟩
      · simp [kruskalLoop, hfa, hfb, hcond, hjoin, hloop]
      · have hacc : acceptCount ((e, true) :: tr) = acceptCount tr + 1 := by
          simp [acceptCount]
        omega
      · intro x y hx hy
        rw [hEF x y hx hy, happrest]

theorem enbrs_cons (e : KEdge) (rest : List KEdge) (u : Nat) :
    enbrs (e :: rest) u = if e.1 = u then e.2.1 :: enbrs rest u
      else if e.2.1 = u then e.1 :: enbrs rest u else enbrs rest u := rfl

theorem mem_enbrs_cons_of {e : KEdge} {rest : List KEdge} {u v : Nat}
    (h : v ∈ enbrs rest u) : v ∈ enbrs (e :: rest) u := by
  rw [enbrs_cons]
  by_cases h1 : e.1 = u
  · rw [if_pos h1]
    exact List.mem_cons_of_mem _ h
  · by_cases h2 : e.2.1 = u
    · rw [if_neg h1, if_pos h2]
      exact List.mem_cons_of_mem _ h
    · rw [if_neg h1, if_neg h2]
      exact h

theorem mem_enbrs_iff {ews : List KEdge} {u v : Nat} :
    v ∈ enbrs ews u ↔ estep ews u v := by
  induction ews with
  | nil =>
    constructor
    · intro hv
      exact absurd hv (List.not_mem_nil _)
    · rintro ⟨w, hw | hw⟩ <;> exact absurd hw (List.not_mem_nil _)
  | cons e rest ih =>
    constructor
    · intro hv
      rw [enbrs_cons] at hv
      by_cases h1 : e.1 = u
      · rw [if_pos h1] at hv
        rcases List.mem_cons.1 hv with hv | hv
        · refine ⟨e.2.2, Or.inl ?_⟩
          have heq : (u, v, e.2.2) = e := by rw [hv, ← h1]
          rw [heq]
          exact List.mem_cons_self _ _
        · obtain ⟨w, hw | hw⟩ := ih.1 hv
          · exact ⟨w, Or.inl (List.mem_cons_of_mem _ hw)⟩
          · exact ⟨w, Or.inr (List.mem_cons_of_mem _ hw)⟩
      · rw [if_neg h1] at hv
        by_cases h2 : e.2.1 = u
        · rw [if_pos h2] at hv
          rcases List.mem_cons.1 hv with hv | hv
          · refine ⟨e.2.2, Or.inr ?_⟩
            have heq : (v, u, e.2.2) = e := by rw [hv, ← h2]
            rw [heq]
            exact List.mem_cons_self _ _
          · obtain ⟨w, hw | hw⟩ := ih.1 hv
            · exact ⟨w, Or.inl (List.mem_cons_of_mem _ hw)⟩
            · exact ⟨w, Or.inr (List.mem_cons_of_mem _ hw)⟩
        · rw [if_neg h2] at hv
          obtain ⟨w, hw | hw⟩ := ih.1 hv
          · exact ⟨w, Or.inl (List.mem_cons_of_mem _ hw)⟩
          · exact ⟨w, Or.inr (List.mem_cons_of_mem _ hw)⟩
    · rintro ⟨w, hw | hw⟩
      · rcases List.mem_cons.1 hw with hw | hw
        · have hu : e.1 = u := by rw [← hw]
          have hv2 : e.2.1 = v := by rw [← hw]
          rw [enbrs_cons, if_pos hu]
          exact List.mem_cons.2 (Or.inl hv2.symm)
        · exact mem_enbrs_cons_of (ih.2 ⟨w, Or.inl hw⟩)
      · rcases List.mem_cons.1 hw with hw | hw
        · have hu : e.2.1 = u := by rw [← hw]
          have hv2 : e.1 = v := by rw [← hw]
          rw [enbrs_cons]
          by_cases h1 : e.1 = u
          · rw [if_pos h1]
            have hve : v = e.2.1 := by rw [← hv2, h1, ← hu]
            exact List.mem_cons.2 (Or.inl hve)
          · rw [if_neg h1, if_pos hu]
            exact List.mem_cons.2 (Or.inl hv2.symm)
        · exact mem_enbrs_cons_of (ih.2 ⟨w, Or.inr hw⟩)

theorem sub_espread (ews : List KEdge) (s : List Nat) : ∀ x ∈ s, x ∈ espread ews s := by
  intro x hx
  exact List.mem_append.2 (Or.inl hx)

theorem sub_ereach (ews : List KEdge) :
    ∀ (f : Nat) (s : List Nat), ∀ x ∈ s, x ∈ ereach ews f s := by
  intro f
  induction f with
  | zero =>
    intro s x hx
    exact hx
  | succ n ih =>
    intro s x hx
    exact ih (espread ews s) x (sub_espread ews s x hx)

theorem espread_stable {ews : List KEdge} {s : List Nat} (h : espread ews s = s) :
    ∀ f, ereach ews f s = s := by
  intro f
  induction f with
  | zero => rfl
  | succ n ih =>
    show ereach ews n (espread ews s) = s
    rw [h]
    exact ih

theorem espread_closed {ews : List KEdge} {s : List Nat} (h : espread ews s = s) :
    ∀ u ∈ s, ∀ v ∈ enbrs ews u, v ∈ s := by
  intro u hu v hv
  by_contra hvs
  have hflat : v ∈ (s.map (enbrs ews)).flatten :=
    List.mem_flatten.2 ⟨enbrs ews u, List.mem_map_of_mem _ hu, hv⟩
  have hfil : v ∈ (s.map (enbrs ews)).flatten.filter (fun z => decide (z ∉ s)) :=
    List.mem_filter.2 ⟨hflat, by simp [hvs]⟩
  have hlen : s.length = (espread ews s).length := by rw [h]
  unfold espread at hlen
  rw [List.length_append] at hlen
  have hzero : ((s.map (enbrs ews)).flatten.filter (fun z => decide (z ∉ s))).length = 0 := by
    omega
  rw [List.length_eq_zero] at hzero
  rw [hzero] at hfil
  exact absurd hfil (List.not_mem_nil _)

theorem ereach_closed {N : Nat} {ews : List KEdge}
    (hE : ∀ u v, v ∈ enbrs ews u → v < N) :
    ∀ (f : Nat) (s : List Nat), (∀ x ∈ s, x < N) → N < s.toFinset.card + f →
      ∀ u ∈ ereach ews f s, ∀ v ∈ enbrs ews u, v ∈ ereach ews f s := by
  intro f
  induction f with
  | zero =>
    intro s hs hcard
    have hsub : s.toFinset ⊆ Finset.range N := by
      intro x hx
      exact Finset.mem_range.2 (hs x (List.mem_toFinset.1 hx))
    have hle := Finset.card_le_card hsub
    simp only [Finset.card_range] at hle
    omega
  | succ n ih =>
    intro s hs hcard
    by_cases hst : espread ews s = s
    · have hre : ereach ews (n + 1) s = s := by
        show ereach ews n (espread ews s) = s
        rw [hst]
        exact espread_stable hst n
      rw [hre]
      exact espread_closed hst
    · have hl : (s.map (enbrs ews)).flatten.filter (fun z => decide (z ∉ s)) ≠ [] := by
        intro hnil
        apply hst
        unfold espread
        rw [hnil]
        simp
      obtain ⟨v, hv⟩ := List.exists_mem_of_ne_nil _ hl
      have hv2 := List.mem_filter.1 hv
      have hvns : v ∉ s := by simpa using hv2.2
      have hvsp : v ∈ espread ews s := List.mem_append.2 (Or.inr hv)
      have hssub : s.toFinset ⊂ (espread ews s).toFinset := by
        constructor
        · intro x hx
          exact List.mem_toFinset.2 (sub_espread ews s x (List.mem_toFinset.1 hx))
        · intro hcontra
          exact hvns (List.mem_toFinset.1 (hcontra (List.mem_toFinset.2 hvsp)))
      have hgrow := Finset.card_lt_card hssub
      have hs2 : ∀ x ∈ espread ews s, x < N := by
        intro x hx
        rcases List.mem_append.1 hx with hx | hx
        · exact hs x hx
        · have hxf := (List.mem_filter.1 hx).1
          obtain ⟨l2, hl2, hxl2⟩ := List.mem_flatten.1 hxf
          obtain ⟨u, hu, hequ⟩ := List.mem_map.1 hl2
          exact hE u x (hequ ▸ hxl2)
      exact ih (espread ews s) hs2 (by omega)

theorem connectedB_complete {N : Nat} {ews : List KEdge}
    (hend : ∀ e ∈ ews, e.1 < N ∧ e.2.1 < N) {x y : Nat} (hx : x < N)
    (h : econn ews x y) : connectedB ews (N + 1) x y = true := by
  have hE : ∀ u v, v ∈ enbrs ews u → v < N := by
    intro u v hv
    obtain ⟨w, hw | hw⟩ := mem_enbrs_iff.1 hv
    · exact (hend _ hw).2
    · exact (hend _ hw).1
  have hone : (∀ z ∈ [x], z < N) := by
    intro z hz
    simp at hz
    rw [hz]
    exact hx
  have hclosed := ereach_closed hE (N + 1) [x] hone (by simp; omega)
  have hmem : x ∈ ereach ews (N + 1) [x] := sub_ereach ews (N + 1) [x] x (by simp)
  unfold connectedB
  simp only [decide_eq_true_eq]
  induction h with
  | refl => exact hmem
  | tail hab hbc ih2 => exact hclosed _ ih2 _ (mem_enbrs_iff.2 hbc)

theorem ereach_sound {ews : List KEdge} :
    ∀ (f : Nat) (s : List Nat) (y : Nat), y ∈ ereach ews f s →
      ∃ x0 ∈ s, econn ews x0 y := by
  intro f
  induction f with
  | zero =>
    intro s y hy
    exact ⟨y, hy, Relation.ReflTransGen.refl⟩
  | succ n ih =>
    intro s y hy
    obtain ⟨x0, hx0, hconn⟩ := ih (espread ews s) y hy
    rcases List.mem_append.1 hx0 with hx0 | hx0
    · exact ⟨x0, hx0, hconn⟩
    · have hxf := (List.mem_filter.1 hx0).1
      obtain ⟨l2, hl2, hxl2⟩ := List.mem_flatten.1 hxf
      obtain ⟨u, hu, hequ⟩ := List.mem_map.1 hl2
      have hstep : estep ews u x0 := mem_enbrs_iff.1 (hequ ▸ hxl2)
      exact ⟨u, hu, Relation.ReflTransGen.head hstep hconn⟩

theorem connectedB_sound {ews : List KEdge} {fuel x y : Nat}
    (h : connectedB ews fuel x y = true) : econn ews x y := by
  unfold connectedB at h
  simp only [decide_eq_true_eq] at h
  obtain ⟨x0, hx0, hconn⟩ := ereach_sound fuel [x] y h
  simp at hx0
  rw [hx0] at hconn
  exact hconn

theorem image_card_minreps (N : Nat) (f : Nat → Nat) :
    ((Finset.range N).image f).card =
      ((Finset.range N).filter (fun x => ∀ y, y < N → y < x → f y ≠ f x)).card := by
  have hinj : Set.InjOn f
      ↑((Finset.range N).filter (fun x => ∀ y, y < N → y < x → f y ≠ f x)) := by
    intro x hx y hy hxy
    simp only [Finset.coe_filter, Set.mem_setOf_eq, Finset.mem_range] at hx hy
    by_contra hne
    rcases Nat.lt_or_ge x y with hlt | hge
    · exact hy.2 x hx.1 hlt hxy
    · have hlt2 : y < x := by omega
      exact hx.2 y hy.1 hlt2 hxy.symm
  have himg : (Finset.range N).image f =
      ((Finset.range N).filter (fun x => ∀ y, y < N → y < x → f y ≠ f x)).image f := by
    apply Finset.Subset.antisymm
    · intro v hv
      obtain ⟨z, hz, hfz⟩ := Finset.mem_image.1 hv
      have hzN := Finset.mem_range.1 hz
      have hP : ∃ m, m < N ∧ f m = v := ⟨z, hzN, hfz⟩
      refine Finset.mem_image.2 ⟨Nat.find hP, ?_, (Nat.find_spec hP).2⟩
      refine Finset.mem_filter.2 ⟨Finset.mem_range.2 (Nat.find_spec hP).1, ?_⟩
      intro y hyN hylt hfy
      have hy2 : y < N ∧ f y = v := ⟨hyN, by rw [hfy]; exact (Nat.find_spec hP).2⟩
      exact absurd hy2 (Nat.find_min hP hylt)
    · intro v hv
      obtain ⟨z, hz, hfz⟩ := Finset.mem_image.1 hv
      exact Finset.mem_image.2 ⟨z, (Finset.mem_filter.1 hz).1, hfz⟩
  rw [himg, Finset.card_image_of_injOn hinj]

theorem numComponents_eq_classCount {N : Nat} {ews : List KEdge} {rootF : List Nat}
    (hinvF : UFInv N rootF) (hend : ∀ e ∈ ews, e.1 < N ∧ e.2.1 < N)
    (hEq : ∀ x y, x < N → y < N → (sameRep rootF x y ↔ econn ews x y)) :
    classCount N rootF = numComponents N ews := by
  unfold classCount
  rw [image_card_minreps N (repOf N rootF)]
  unfold numComponents
  have hnodup : ((List.range N).filter
      (fun x => decide (∀ y ∈ List.range N, y < x →
        connectedB ews (N + 1) x y = false))).Nodup :=
    (List.nodup_range N).filter _
  rw [← List.toFinset_card_of_nodup hnodup]
  congr 1
  ext x
  simp only [List.mem_toFinset, List.mem_filter, List.mem_range, Finset.mem_filter,
    Finset.mem_range, decide_eq_true_eq]
  constructor
  · rintro ⟨hxN, hmin⟩
    refine ⟨hxN, ?_⟩
    intro y hyN hylt
    cases hb : connectedB ews (N + 1) x y with
    | false => rfl
    | true =>
      have hconn := connectedB_sound hb
      have hfeq := (sameRep_iff_repOf hinvF hxN hyN).1 ((hEq x y hxN hyN).2 hconn)
      exact absurd hfeq.symm (hmin y hyN hylt)
  · rintro ⟨hxN, hmin⟩
    refine ⟨hxN, ?_⟩
    intro y hyN hylt hfeq
    have hconn : econn ews x y :=
      (hEq x y hxN hyN).1 ((sameRep_iff_repOf hinvF hxN hyN).2 hfeq.symm)
    have hfalse := hmin y hyN hylt
    have htrue := connectedB_complete hend hxN hconn
    rw [htrue] at hfalse
    exact absurd hfalse (by decide)

theorem repOf_range {N z : Nat} (hz : z < N) : repOf N (List.range N) z = z := by
  refine repOf_eq_of_reach (UFInv_range N) hz (RootReach_fix_self ?_)
  show (List.range N).getD z 0 = z
  rw [List.getD_eq_getElem _ 0 (by simpa using hz)]
  simp

theorem classCount_range (N : Nat) : classCount N (List.range N) = N := by
  unfold classCount
  rw [Finset.image_congr (g := id) (by
    intro z hz
    simp only [Finset.coe_range, Set.mem_Iio] at hz
    exact repOf_range hz)]
  rw [Finset.image_id, Finset.card_range]

theorem sameRep_range_iff {N x y : Nat} (hx : x < N) (hy : y < N) :
    sameRep (List.range N) x y ↔ x = y := by
  rw [sameRep_iff_repOf (UFInv_range N) hx hy, repOf_range hx, repOf_range hy]

/-! ## C3: accepted-edge count equals `N - #components` -/

/-- C3: for every node count `N` and edge list over nodes `0..N-1`, the
number of accepted events in the trace returned by `kruskals` equals `N`
minus the number of connected components of the input graph (computed by the
independent reference `numComponents`). -/
theorem kruskals_accept_count (N : Nat) (ews : List KEdge)
    (h : ∀ e ∈ ews, e.1 < N ∧ e.2.1 < N) :
    ∃ tr, kruskalsRun N ews = some tr ∧
      acceptCount tr + numComponents N ews = N ∧
      acceptCount tr = N - numComponents N ews := by
  have hall : ∀ e ∈ sortEdges ews, e.1 < N ∧ e.2.1 < N :=
    fun e hee => h e ((sortEdges_perm ews).mem_iff.1 hee)
  have hE0 : ∀ x y, x < N → y < N →
      (sameRep (List.range N) x y ↔ econn [] x y) := by
    intro x y hx hy
    rw [sameRep_range_iff hx hy]
    constructor
    · intro hxy
      rw [hxy]
      exact Relation.ReflTransGen.refl
    · exact econn_nil
  obtain ⟨tr, rootF, hloop, hinvF, hcount, hEF⟩ :=
    kruskalLoop_count (sortEdges ews) (List.range N) [] (UFInv_range N) hall hE0
  have hEF2 : ∀ x y, x < N → y < N → (sameRep rootF x y ↔ econn ews x y) := by
    intro x y hx hy
    rw [hEF x y hx hy]
    rw [List.nil_append]
    exact econn_perm_iff (sortEdges_perm ews) x y
  have hnum : classCount N rootF = numComponents N ews :=
    numComponents_eq_classCount hinvF h hEF2
  rw [classCount_range, hnum] at hcount
  refine ⟨tr, ?_, hcount, by omega⟩
  unfold kruskalsRun
  exact hloop

/-- Witness for C3 at the specification's concrete scenario (`N = 4`, MST
accepts three edges, one component). -/
theorem kruskals_accept_count_witness :
    (∀ e ∈ [((0 : Nat), (1 : Nat), (5 : Nat)), (1, 2, 3), (2, 3, 1), (0, 3, 10)],
      e.1 < 4 ∧ e.2.1 < 4) ∧
    ∃ tr, kruskalsRun 4 [(0, 1, 5), (1, 2, 3), (2, 3, 1), (0, 3, 10)] = some tr ∧
      acceptCount tr + numComponents 4 [(0, 1, 5), (1, 2, 3), (2, 3, 1), (0, 3, 10)] = 4 ∧
      acceptCount tr = 4 - numComponents 4 [(0, 1, 5), (1, 2, 3), (2, 3, 1), (0, 3, 10)] :=
  ⟨by decide, kruskals_accept_count 4 _ (by decide)⟩

/-! ## C1: Dijkstra's final distance table -/

theorem hpush_mem {h : List (Nat × Node)} {e z : Nat × Node} :
    z ∈ hpush h e ↔ z = e ∨ z ∈ h := by
  unfold hpush
  rw [(List.perm_orderedInsert heapLe e h).mem_iff]
  simp

theorem hpush_length (h : List (Nat × Node)) (e : Nat × Node) :
    (hpush h e).length = h.length + 1 := by
  unfold hpush
  rw [(List.perm_orderedInsert heapLe e h).length_eq]
  rfl

/-- Dijkstra termination measure: heap size plus the total of all tracked
distances (every relaxation strictly decreases the total and pushes one
entry; every iteration pops one entry). -/
def dMeasure (g : Graph) (s : DijkSt) : Nat :=
  s.heap.length + ∑ v ∈ (allNodes g).toFinset, s.d v

theorem relaxSt_measure_le {g : Graph} {cur : Node} {wt : Nat} {node : Node}
    {s : DijkSt} (hmem : node ∈ allNodes g) (hrel : s.d cur + wt < s.d node) :
    dMeasure g (relaxSt cur wt node s) ≤ dMeasure g s := by
  have hF : node ∈ (allNodes g).toFinset := List.mem_toFinset.2 hmem
  have hsum1 := Finset.sum_eq_sum_diff_singleton_add hF (relaxSt cur wt node s).d
  have hsum2 := Finset.sum_eq_sum_diff_singleton_add hF s.d
  have hcongr : ∑ v ∈ (allNodes g).toFinset \ {node}, (relaxSt cur wt node s).d v =
      ∑ v ∈ (allNodes g).toFinset \ {node}, s.d v := by
    apply Finset.sum_congr rfl
    intro x hx
    have hxne : x ≠ node := by
      intro hh
      rw [hh] at hx
      simp at hx
    show (if x = node then s.d cur + wt else s.d x) = s.d x
    rw [if_neg hxne]
  have hdnode : (relaxSt cur wt node s).d node = s.d cur + wt := by
    show (if node = node then s.d cur + wt else s.d node) = s.d cur + wt
    rw [if_pos rfl]
  have hheap : (relaxSt cur wt node s).heap.length = s.heap.length + 1 := by
    show (hpush s.heap (s.d cur + wt, node)).length = s.heap.length + 1
    exact hpush_length _ _
  have hkey : (∑ v ∈ (allNodes g).toFinset, (relaxSt cur wt node s).d v) + s.d node =
      (∑ v ∈ (allNodes g).toFinset, s.d v) + (s.d cur + wt) := by
    rw [hsum1, hsum2, hcongr, hdnode]
    ring
  unfold dMeasure
  omega

theorem dijkScan_measure_le {g : Graph} {cur : Node} :
    ∀ (l : Adj) (s : DijkSt), (∀ e ∈ l, e.2 ∈ allNodes g) →
      dMeasure g (dijkScan cur l s) ≤ dMeasure g s := by
  intro l
  induction l with
  | nil =>
    intro s _
    exact le_rfl
  | cons e rest ih =>
    intro s hall
    obtain ⟨wt, node⟩ := e
    by_cases hrel : s.d cur + wt < s.d node
    · simp only [dijkScan, if_pos hrel]
      have h1 := ih (relaxSt cur wt node s)
        (fun x hx => hall x (List.mem_cons_of_mem _ hx))
      have h2 := relaxSt_measure_le (g := g)
        (show node ∈ allNodes g from hall (wt, node) (List.mem_cons_self _ _)) hrel
      omega
    · simp only [dijkScan, if_neg hrel]
      exact ih s (fun x hx => hall x (List.mem_cons_of_mem _ hx))

theorem dijkLoop_done {g : Graph} :
    ∀ (fuel : Nat) (s : DijkSt), dMeasure g s < fuel →
      (dijkLoop g fuel s).heap = [] := by
  intro fuel
  induction fuel with
  | zero =>
    intro s hm
    exact absurd hm (by omega)
  | succ n ih =>
    intro s hm
    match hh : s.heap with
    | [] =>
      simp [dijkLoop, hh]
    | (p, cur) :: hrest =>
      simp only [dijkLoop, hh]
      apply ih
      have hscan := @dijkScan_measure_le g cur (lookupG g cur) { s with heap := hrest }
        (fun e he => mem_lookupG_mem_allNodes he)
      have hpop : dMeasure g { s with heap := hrest } + 1 = dMeasure g s := by
        unfold dMeasure
        rw [hh]
        simp only [List.length_cons]
        omega
      omega

theorem wcost_append (a b : List (Nat × Node)) : wcost (a ++ b) = wcost a + wcost b := by
  simp [wcost]

theorem wcost_cons (e : Nat × Node) (rest : List (Nat × Node)) :
    wcost (e :: rest) = e.1 + wcost rest := by
  simp [wcost]

theorem WalkL_snoc {g : Graph} {start : Node} {steps : List (Nat × Node)} {u : Node}
    (hw : WalkL g start steps u) {e : Nat × Node} (he : e ∈ lookupG g u) :
    WalkL g start (steps ++ [e]) e.2 := by
  induction steps generalizing start with
  | nil =>
    replace hw : start = u := hw
    subst hw
    exact ⟨he, rfl⟩
  | cons e0 rest ih =>
    obtain ⟨h1, h2⟩ := hw
    exact ⟨h1, ih h2⟩

/-- The Dijkstra loop invariant: the source has distance `0`, all distances
are at most the sentinel, every finite distance is realized by a walk, and
every adjacency entry is either already relaxed or its source has a pending
heap entry. -/
structure DInv (g : Graph) (start : Node) (s : DijkSt) : Prop where
  d_start : s.d start = 0
  d_le : ∀ v, s.d v ≤ INF
  d_walk : ∀ v, s.d v < INF → ∃ steps, WalkL g start steps v ∧ wcost steps = s.d v
  relaxed : ∀ u, ∀ e ∈ lookupG g u, s.d e.2 ≤ s.d u + e.1 ∨ ∃ p, (p, u) ∈ s.heap

theorem dijkScan_inv {g : Graph} {start cur : Node} :
    ∀ (l : Adj) (s : DijkSt), (∀ e ∈ l, e ∈ lookupG g cur) →
      s.d start = 0 → (∀ v, s.d v ≤ INF) →
      (∀ v, s.d v < INF → ∃ steps, WalkL g start steps v ∧ wcost steps = s.d v) →
      (∀ u, ∀ e ∈ lookupG g u,
        s.d e.2 ≤ s.d u + e.1 ∨ (∃ p, (p, u) ∈ s.heap) ∨ (u = cur ∧ e ∈ l)) →
      DInv g start (dijkScan cur l s) := by
  intro l
  induction l with
  | nil =>
    intro s _ h1 h2 h3 h4
    refine ⟨h1, h2, h3, ?_⟩
    intro u e he
    rcases h4 u e he with hc | hc | hc
    · exact Or.inl hc
    · exact Or.inr hc
    · exact absurd hc.2 (List.not_mem_nil _)
  | cons e0 rest ih =>
    intro s hl h1 h2 h3 h4
    obtain ⟨wt, node⟩ := e0
    by_cases hrel : s.d cur + wt < s.d node
    · simp only [dijkScan, if_pos hrel]
      have hcn : s.d cur < INF := by
        have := h2 node
        omega
      have hnst : node ≠ start := by
        intro hh
        rw [hh, h1] at hrel
        omega
      have hcne : cur ≠ node := by
        intro hh
        rw [← hh] at hrel
        omega
      have hmono := relaxSt_d_le cur wt node s hrel
      have hd : ∀ v, (relaxSt cur wt node s).d v =
          if v = node then s.d cur + wt else s.d v := fun v => rfl
      have hheapm : ∀ z, z ∈ (relaxSt cur wt node s).heap ↔
          z = (s.d cur + wt, node) ∨ z ∈ s.heap := by
        intro z
        exact hpush_mem
      have hmemhead : ((wt, node) : Nat × Node) ∈ lookupG g cur :=
        hl (wt, node) (List.mem_cons_self _ _)
      apply ih (relaxSt cur wt node s)
        (fun e he => hl e (List.mem_cons_of_mem _ he))
      · rw [hd start, if_neg (fun hh => hnst hh.symm)]
        exact h1
      · intro v
        rw [hd v]
        by_cases hv : v = node
        · rw [if_pos hv]
          have := h2 node
          omega
        · rw [if_neg hv]
          exact h2 v
      · intro v hvlt
        rw [hd v] at hvlt ⊢
        by_cases hv : v = node
        · rw [if_pos hv] at hvlt ⊢
          obtain ⟨steps, hw, hcost⟩ := h3 cur hcn
          refine ⟨steps ++ [(wt, node)], ?_, ?_⟩
          · have hwn := WalkL_snoc hw hmemhead
            rw [hv]
            exact hwn
          · rw [wcost_append, hcost]
            simp [wcost]
        · rw [if_neg hv] at hvlt ⊢
          exact h3 v hvlt
      · intro u e he
        rcases h4 u e he with hc | hc | hc
        · by_cases hu : u = node
          · refine Or.inr (Or.inl ⟨s.d cur + wt, ?_⟩)
            rw [hu]
            exact (hheapm _).2 (Or.inl rfl)
          · refine Or.inl ?_
            rw [hd u, if_neg hu]
            exact le_trans (hmono e.2) hc
        · obtain ⟨p, hp⟩ := hc
          exact Or.inr (Or.inl ⟨p, (hheapm _).2 (Or.inr hp)⟩)
        · rcases List.mem_cons.1 hc.2 with he0 | he0
          · refine Or.inl ?_
            rw [hc.1, he0]
            show (relaxSt cur wt node s).d node ≤ (relaxSt cur wt node s).d cur + wt
            rw [hd node, if_pos rfl, hd cur, if_neg hcne]
          · exact Or.inr (Or.inr ⟨hc.1, he0⟩)
    · simp only [dijkScan, if_neg hrel]
      apply ih s (fun e he => hl e (List.mem_cons_of_mem _ he)) h1 h2 h3
      intro u e he
      rcases h4 u e he with hc | hc | hc
      · exact Or.inl hc
      · exact Or.inr (Or.inl hc)
      · rcases List.mem_cons.1 hc.2 with he0 | he0
        · refine Or.inl ?_
          rw [hc.1, he0]
          show s.d node ≤ s.d cur + wt
          omega
        · exact Or.inr (Or.inr ⟨hc.1, he0⟩)

theorem dijkLoop_inv {g : Graph} {start : Node} :
    ∀ (fuel : Nat) (s : DijkSt), DInv g start s → DInv g start (dijkLoop g fuel s) := by
  intro fuel
  induction fuel with
  | zero => exact fun s h => h
  | succ n ih =>
    intro s h
    match hh : s.heap with
    | [] =>
      simp only [dijkLoop, hh]
      exact h
    | (p, cur) :: hrest =>
      simp only [dijkLoop, hh]
      apply ih
      apply dijkScan_inv (lookupG g cur) { s with heap := hrest } (fun e he => he)
        h.d_start h.d_le h.d_walk
      intro u e he
      rcases h.relaxed u e he with hc | ⟨p2, hp2⟩
      · exact Or.inl hc
      · rw [hh] at hp2
        rcases List.mem_cons.1 hp2 with hp2 | hp2
        · have hu : u = cur := congrArg Prod.snd hp2
          refine Or.inr (Or.inr ⟨hu, ?_⟩)
          rw [← hu]
          exact he
        · exact Or.inr (Or.inl ⟨p2, hp2⟩)

theorem dijkInit_inv (g : Graph) (start : Node) : DInv g start (dijkInit start) := by
  have hd : ∀ v, (dijkInit start).d v = if v = start then 0 else INF := fun v => rfl
  have hheap : (dijkInit start).heap = [(0, start)] := rfl
  refine ⟨?_, ?_, ?_, ?_⟩
  · rw [hd start, if_pos rfl]
  · intro v
    rw [hd v]
    by_cases hv : v = start
    · rw [if_pos hv]
      exact Nat.zero_le _
    · rw [if_neg hv]
  · intro v hvlt
    rw [hd v] at hvlt
    by_cases hv : v = start
    · subst hv
      refine ⟨[], rfl, ?_⟩
      rw [hd v, if_pos rfl]
      rfl
    · rw [if_neg hv] at hvlt
      omega
  · intro u e he
    by_cases hu : u = start
    · exact Or.inr ⟨0, by rw [hu, hheap]; exact List.mem_singleton.2 rfl⟩
    · refine Or.inl ?_
      rw [hd e.2, hd u, if_neg hu]
      by_cases hv : e.2 = start
      · rw [if_pos hv]
        exact Nat.zero_le _
      · rw [if_neg hv]
        omega

theorem dijkInit_measure (g : Graph) (start : Node) :
    dMeasure g (dijkInit start) < dijkFuel g := by
  have hd : ∀ v, (dijkInit start).d v = if v = start then 0 else INF := fun v => rfl
  have hlen : (dijkInit start).heap.length = 1 := rfl
  have hb : ∀ x ∈ (allNodes g).toFinset, (dijkInit start).d x ≤ INF := by
    intro x _
    rw [hd x]
    by_cases hx : x = start
    · rw [if_pos hx]
      exact Nat.zero_le _
    · rw [if_neg hx]
  have hsum : ∑ v ∈ (allNodes g).toFinset, (dijkInit start).d v ≤
      (allNodes g).toFinset.card * INF := by
    have := Finset.sum_le_card_nsmul (allNodes g).toFinset (dijkInit start).d INF hb
    simpa [smul_eq_mul] using this
  have hcard : (allNodes g).toFinset.card = ((allNodes g).dedup).length :=
    List.card_toFinset _
  rw [hcard] at hsum
  unfold dMeasure dijkFuel
  rw [hlen]
  omega

theorem dijkScan_ad_last {cur : Node} :
    ∀ (l : Adj) (s : DijkSt), s.ad.getLast? = some s.d →
      (dijkScan cur l s).ad.getLast? = some (dijkScan cur l s).d := by
  intro l
  induction l with
  | nil => exact fun s h => h
  | cons e rest ih =>
    intro s h
    obtain ⟨wt, node⟩ := e
    by_cases hrel : s.d cur + wt < s.d node
    · simp only [dijkScan, if_pos hrel]
      apply ih
      have had : (relaxSt cur wt node s).ad = s.ad ++ [(relaxSt cur wt node s).d] := rfl
      rw [had, List.getLast?_concat]
    · simp only [dijkScan, if_neg hrel]
      exact ih s h

theorem dijkLoop_ad_last {g : Graph} :
    ∀ (fuel : Nat) (s : DijkSt), s.ad.getLast? = some s.d →
      (dijkLoop g fuel s).ad.getLast? = some (dijkLoop g fuel s).d := by
  intro fuel
  induction fuel with
  | zero => exact fun s h => h
  | succ n ih =>
    intro s h
    match hh : s.heap with
    | [] =>
      simp only [dijkLoop, hh]
      exact h
    | (p, cur) :: hrest =>
      simp only [dijkLoop, hh]
      exact ih _ (dijkScan_ad_last (lookupG g cur) { s with heap := hrest } h)

theorem dijkFinalTable_eq (g : Graph) (start : Node) :
    dijkFinalTable g start = (dijkLoop g (dijkFuel g) (dijkInit start)).d := by
  have h0 : (dijkInit start).ad.getLast? = some (dijkInit start).d := by
    show ([(dijkInit start).d] : List (Node → Nat)).getLast? = some (dijkInit start).d
    simp
  have h := @dijkLoop_ad_last g (dijkFuel g) (dijkInit start) h0
  show ((dijkLoop g (dijkFuel g) (dijkInit start)).ad).getLastD (fun _ => 0) = _
  rw [List.getLastD_eq_getLast?, h]
  rfl

theorem dijk_final_state (g : Graph) (start : Node) :
    DInv g start (dijkLoop g (dijkFuel g) (dijkInit start)) ∧
    (dijkLoop g (dijkFuel g) (dijkInit start)).heap = [] :=
  ⟨dijkLoop_inv _ _ (dijkInit_inv g start),
   dijkLoop_done _ _ (dijkInit_measure g start)⟩

theorem mem_lookupG_src_mem_keys {g : Graph} {u : Node} {e : Nat × Node}
    (h : e ∈ lookupG g u) : u ∈ keys g := by
  unfold lookupG at h
  cases hE : lookupE g u with
  | none =>
    rw [hE] at h
    simp at h
  | some l =>
    exact lookupE_isSome_iff.1 (by rw [hE]; rfl)

theorem mem_lookupE_of_nodup {g : Graph} (hnd : (keys g).Nodup) {u : Node} {l : Adj}
    (h : (u, l) ∈ g) : lookupE g u = some l := by
  induction g with
  | nil => simp at h
  | cons p rest ih =>
    obtain ⟨k0, l0⟩ := p
    have hk : k0 ∉ keys rest ∧ (keys rest).Nodup := by
      simpa [keys] using hnd
    rcases List.mem_cons.1 h with he | he
    · have hu : u = k0 := congrArg Prod.fst he
      have hl : l = l0 := congrArg Prod.snd he
      subst hu
      subst hl
      simp [lookupE]
    · have hu : u ∈ keys rest := by
        simp only [keys, List.mem_map]
        exact ⟨(u, l), he, rfl⟩
      have hne : k0 ≠ u := fun hh => hk.1 (hh ▸ hu)
      simp only [lookupE, if_neg hne]
      exact ih hk.2 he

/-- Once the heap is empty, every adjacency entry is relaxed; every walk is
then an upper-bound certificate for the final table. -/
theorem dijk_upper {g : Graph} {d : Node → Nat}
    (hrel : ∀ u, ∀ e ∈ lookupG g u, d e.2 ≤ d u + e.1) :
    ∀ (steps : List (Nat × Node)) (u v : Node), WalkL g u steps v →
      d v ≤ d u + wcost steps := by
  intro steps
  induction steps with
  | nil =>
    intro u v hw
    replace hw : u = v := hw
    subst hw
    simp [wcost]
  | cons e rest ih =>
    intro u v hw
    obtain ⟨h1, h2⟩ := hw
    have h3 := ih e.2 v h2
    have h4 := hrel u e h1
    rw [wcost_cons]
    omega

/-- The inner fold of `bfMin` over one adjacency list. -/
def relaxFold (dk : Node → ℕ∞) (u v : Node) (l : Adj) (acc : ℕ∞) : ℕ∞ :=
  List.foldr (fun e acc2 => if e.2 = v then min acc2 (dk u + (e.1 : ℕ∞)) else acc2) acc l

theorem bfMin_nil (dk : Node → ℕ∞) (v : Node) : bfMin [] dk v = ⊤ := rfl

theorem bfMin_cons (p : Node × Adj) (rest : Graph) (dk : Node → ℕ∞) (v : Node) :
    bfMin (p :: rest) dk v = relaxFold dk p.1 v p.2 (bfMin rest dk v) := rfl

theorem relaxFold_le_acc (dk : Node → ℕ∞) (u v : Node) :
    ∀ (l : Adj) (acc : ℕ∞), relaxFold dk u v l acc ≤ acc := by
  intro l
  induction l with
  | nil => exact fun acc => le_rfl
  | cons e rest ih =>
    intro acc
    show (if e.2 = v then min (relaxFold dk u v rest acc) (dk u + (e.1 : ℕ∞))
        else relaxFold dk u v rest acc) ≤ acc
    by_cases hv : e.2 = v
    · rw [if_pos hv]
      exact le_trans (min_le_left _ _) (ih acc)
    · rw [if_neg hv]
      exact ih acc

theorem relaxFold_le (dk : Node → ℕ∞) (u v : Node) :
    ∀ (l : Adj) (acc : ℕ∞), ∀ e ∈ l, e.2 = v →
      relaxFold dk u v l acc ≤ dk u + (e.1 : ℕ∞) := by
  intro l
  induction l with
  | nil =>
    intro acc e he
    exact absurd he (List.not_mem_nil _)
  | cons e0 rest ih =>
    intro acc e he hv
    rcases List.mem_cons.1 he with he | he
    · subst he
      show (if e.2 = v then min (relaxFold dk u v rest acc) (dk u + (e.1 : ℕ∞))
          else relaxFold dk u v rest acc) ≤ dk u + (e.1 : ℕ∞)
      rw [if_pos hv]
      exact min_le_right _ _
    · show (if e0.2 = v then min (relaxFold dk u v rest acc) (dk u + (e0.1 : ℕ∞))
          else relaxFold dk u v rest acc) ≤ dk u + (e.1 : ℕ∞)
      by_cases hv0 : e0.2 = v
      · rw [if_pos hv0]
        exact le_trans (min_le_left _ _) (ih acc e he hv)
      · rw [if_neg hv0]
        exact ih acc e he hv

theorem relaxFold_cases (dk : Node → ℕ∞) (u v : Node) :
    ∀ (l : Adj) (acc : ℕ∞), relaxFold dk u v l acc = acc ∨
      ∃ e ∈ l, e.2 = v ∧ relaxFold dk u v l acc = dk u + (e.1 : ℕ∞) := by
  intro l
  induction l with
  | nil => exact fun acc => Or.inl rfl
  | cons e0 rest ih =>
    intro acc
    have hshape : relaxFold dk u v (e0 :: rest) acc =
        (if e0.2 = v then min (relaxFold dk u v rest acc) (dk u + (e0.1 : ℕ∞))
          else relaxFold dk u v rest acc) := rfl
    by_cases hv0 : e0.2 = v
    · rw [hshape, if_pos hv0]
      rcases le_total (relaxFold dk u v rest acc) (dk u + (e0.1 : ℕ∞)) with hle | hle
      · rw [min_eq_left hle]
        rcases ih acc with hc | ⟨e, he, hev, hval⟩
        · exact Or.inl hc
        · exact Or.inr ⟨e, List.mem_cons_of_mem _ he, hev, hval⟩
      · rw [min_eq_right hle]
        exact Or.inr ⟨e0, List.mem_cons_self _ _, hv0, rfl⟩
    · rw [hshape, if_neg hv0]
      rcases ih acc with hc | ⟨e, he, hev, hval⟩
      · exact Or.inl hc
      · exact Or.inr ⟨e, List.mem_cons_of_mem _ he, hev, hval⟩

theorem bfMin_le {g : Graph} {dk : Node → ℕ∞} {v : Node} {p : Node × Adj}
    (hp : p ∈ g) {e : Nat × Node} (he : e ∈ p.2) (hv : e.2 = v) :
    bfMin g dk v ≤ dk p.1 + (e.1 : ℕ∞) := by
  induction g with
  | nil => exact absurd hp (List.not_mem_nil _)
  | cons q rest ih =>
    rw [bfMin_cons]
    rcases List.mem_cons.1 hp with hq | hq
    · subst hq
      exact relaxFold_le dk p.1 v p.2 _ e he hv
    · exact le_trans (relaxFold_le_acc dk q.1 v q.2 _) (ih hq)

theorem bfMin_cases (g : Graph) (dk : Node → ℕ∞) (v : Node) :
    bfMin g dk v = ⊤ ∨
      ∃ p ∈ g, ∃ e ∈ p.2, e.2 = v ∧ bfMin g dk v = dk p.1 + (e.1 : ℕ∞) := by
  induction g with
  | nil => exact Or.inl rfl
  | cons q rest ih =>
    rw [bfMin_cons]
    rcases relaxFold_cases dk q.1 v q.2 (bfMin rest dk v) with hc | ⟨e, he, hev, hval⟩
    · rw [hc]
      rcases ih with hT | ⟨p, hp, e, he, hev, hval⟩
      · exact Or.inl hT
      · exact Or.inr ⟨p, List.mem_cons_of_mem _ hp, e, he, hev, hval⟩
    · exact Or.inr ⟨q, List.mem_cons_self _ _, e, he, hev, hval⟩

theorem bf_succ_le (g : Graph) (start : Node) (k : Nat) (v : Node) :
    bf g start (k + 1) v ≤ bf g start k v :=
  min_le_left _ _

theorem bf_antitone (g : Graph) (start : Node) {v : Node} :
    ∀ (k j : Nat), j ≤ k → bf g start k v ≤ bf g start j v := by
  intro k
  induction k with
  | zero =>
    intro j hj
    have : j = 0 := Nat.le_zero.1 hj
    subst this
    exact le_rfl
  | succ n ih =>
    intro j hj
    by_cases hj1 : j = n + 1
    · subst hj1
      exact le_rfl
    · exact le_trans (bf_succ_le g start n v) (ih j (by omega))

theorem WalkL_append {g : Graph} :
    ∀ (s1 s2 : List (Nat × Node)) (a c : Node),
      WalkL g a (s1 ++ s2) c ↔ ∃ b, WalkL g a s1 b ∧ WalkL g b s2 c := by
  intro s1
  induction s1 with
  | nil =>
    intro s2 a c
    constructor
    · intro h
      exact ⟨a, rfl, h⟩
    · intro ⟨b, h1, h2⟩
      replace h1 : a = b := h1
      subst h1
      exact h2
  | cons e rest ih =>
    intro s2 a c
    constructor
    · intro ⟨h1, h2⟩
      obtain ⟨b, hb1, hb2⟩ := (ih s2 e.2 c).1 h2
      exact ⟨b, ⟨h1, hb1⟩, hb2⟩
    · intro ⟨b, ⟨h1, hb1⟩, h2⟩
      exact ⟨h1, (ih s2 e.2 c).2 ⟨b, hb1, h2⟩⟩

/-- Every walk of at most `k` steps is an upper bound for `bf _ _ k`. -/
theorem bf_le_walk {g : Graph} {start : Node} :
    ∀ (steps : List (Nat × Node)) (v : Node) (k : Nat), WalkL g start steps v →
      steps.length ≤ k → bf g start k v ≤ (wcost steps : ℕ∞) := by
  intro steps
  induction steps using List.reverseRecOn with
  | nil =>
    intro v k hw _
    replace hw : start = v := hw
    subst hw
    have h0 : bf g start 0 start = 0 := by simp [bf]
    have hk := @bf_antitone g start start k 0 (Nat.zero_le k)
    rw [h0] at hk
    simpa [wcost] using hk
  | append_singleton steps e ih =>
    intro v k hw hk
    obtain ⟨b, hw1, hw2⟩ := (WalkL_append steps [e] start v).1 hw
    obtain ⟨hm, hv⟩ := hw2
    replace hv : e.2 = v := hv
    cases k with
    | zero =>
      simp at hk
    | succ n =>
      have hlen : steps.length ≤ n := by
        rw [List.length_append] at hk
        simpa using hk
      have hb := ih b n hw1 hlen
      have hsrc : ∃ l, lookupE g b = some l ∧ e ∈ l := by
        unfold lookupG at hm
        cases hE : lookupE g b with
        | none =>
          rw [hE] at hm
          simp at hm
        | some l =>
          rw [hE] at hm
          exact ⟨l, rfl, hm⟩
      obtain ⟨l, hE, hel⟩ := hsrc
      have hpg : ((b, l) : Node × Adj) ∈ g := lookupE_mem hE
      have hmle : bfMin g (bf g start n) v ≤ bf g start n b + (e.1 : ℕ∞) :=
        bfMin_le hpg hel hv
      have hstep : bf g start (n + 1) v ≤ bfMin g (bf g start n) v :=
        min_le_right _ _
      calc bf g start (n + 1) v ≤ bfMin g (bf g start n) v := hstep
        _ ≤ bf g start n b + (e.1 : ℕ∞) := hmle
        _ ≤ (wcost steps : ℕ∞) + (e.1 : ℕ∞) := add_le_add_right hb _
        _ = (wcost (steps ++ [e]) : ℕ∞) := by
            have hwc : wcost (steps ++ [e]) = wcost steps + e.1 := by
              simp [wcost]
            rw [hwc]
            push_cast
            ring

/-- Every finite `bf` value is realized by an actual walk of that cost
(requires unique dict keys, so that key membership determines the adjacency
list). -/
theorem bf_attained {g : Graph} (hnd : (keys g).Nodup) {start : Node} :
    ∀ (k : Nat) (v : Node) (c : Nat), bf g start k v = (c : ℕ∞) →
      ∃ steps, WalkL g start steps v ∧ wcost steps = c := by
  intro k
  induction k with
  | zero =>
    intro v c hc
    by_cases hv : v = start
    · subst hv
      rw [show bf g v 0 v = (0 : ℕ∞) from by simp [bf]] at hc
      have hc0 : c = 0 := by exact_mod_cast hc.symm
      exact ⟨[], rfl, by simp [wcost, hc0]⟩
    · rw [show bf g start 0 v = ⊤ from by simp [bf, hv]] at hc
      exact absurd hc (by simp)
  | succ n ih =>
    intro v c hc
    have hminp : bf g start (n + 1) v =
        min (bf g start n v) (bfMin g (bf g start n) v) := rfl
    rcases min_cases (bf g start n v) (bfMin g (bf g start n) v) with ⟨heq, _⟩ | ⟨heq, _⟩
    · exact ih v c (by rw [← heq, ← hminp]; exact hc)
    · have hbm : bfMin g (bf g start n) v = (c : ℕ∞) := by
        rw [← heq, ← hminp]
        exact hc
      rcases bfMin_cases g (bf g start n) v with htop | ⟨p, hp, e, hep, hev, hval⟩
      · rw [htop] at hbm
        exact absurd hbm (by simp)
      · rw [hval] at hbm
        have hfin : bf g start n p.1 ≠ ⊤ := by
          intro hT
          rw [hT] at hbm
          simp at hbm
        obtain ⟨c1, hc1⟩ := WithTop.ne_top_iff_exists.1 hfin
        obtain ⟨steps, hw, hcost⟩ := ih p.1 c1 hc1.symm
        have hE : lookupE g p.1 = some p.2 := mem_lookupE_of_nodup hnd hp
        have hmem : e ∈ lookupG g p.1 := by
          rw [lookupE_lookupG hE]
          exact hep
        have hsum : c1 + e.1 = c := by
          rw [← hc1] at hbm
          have h2 : ((c1 + e.1 : Nat) : ℕ∞) = (c : ℕ∞) := by
            rw [Nat.cast_add]
            exact hbm
          exact_mod_cast h2
        refine ⟨steps ++ [e], ?_, ?_⟩
        · have hws := WalkL_snoc hw hmem
          rw [hev] at hws
          exact hws
        · rw [wcost_append, wcost_cons, hcost]
          simp [wcost]
          omega

/-- The node visited after `i` steps of a walk (position `i` in
`start :: targets`). -/
def wnode (start : Node) (steps : List (Nat × Node)) (i : Nat) : Node :=
  (start :: steps.map Prod.snd).getD i start

theorem wnode_cons (start : Node) (e : Nat × Node) (rest : List (Nat × Node))
    (i : Nat) (hi : i ≤ rest.length) :
    wnode start (e :: rest) (i + 1) = wnode e.2 rest i := by
  unfold wnode
  simp only [List.map_cons, List.getD_cons_succ]
  rw [List.getD_eq_getElem?_getD, List.getD_eq_getElem?_getD]
  have hlt : i < (e.2 :: rest.map Prod.snd).length := by
    simp
    omega
  rw [List.getElem?_eq_getElem hlt]
  rfl

theorem walkL_split {g : Graph} :
    ∀ (steps : List (Nat × Node)) (start v : Node) (i : Nat), i ≤ steps.length →
      WalkL g start steps v →
      WalkL g start (steps.take i) (wnode start steps i) ∧
      WalkL g (wnode start steps i) (steps.drop i) v := by
  intro steps
  induction steps with
  | nil =>
    intro start v i hi hw
    have hi0 : i = 0 := Nat.le_zero.1 hi
    subst hi0
    exact ⟨rfl, hw⟩
  | cons e rest ih =>
    intro start v i hi hw
    obtain ⟨h1, h2⟩ := hw
    match i with
    | 0 => exact ⟨rfl, h1, h2⟩
    | i' + 1 =>
      have hi' : i' ≤ rest.length := by simpa using hi
      have hih := ih e.2 v i' hi' h2
      have hwn : wnode start (e :: rest) (i' + 1) = wnode e.2 rest i' :=
        wnode_cons start e rest i' hi'
      constructor
      · show WalkL g start (e :: rest.take i') (wnode start (e :: rest) (i' + 1))
        refine ⟨h1, ?_⟩
        rw [hwn]
        exact hih.1
      · show WalkL g (wnode start (e :: rest) (i' + 1)) (rest.drop i') v
        rw [hwn]
        exact hih.2

theorem getD_split {α : Type} (l1 : List α) (x : α) (t : List α) (d : α) :
    (l1 ++ x :: t).getD l1.length d = x := by
  induction l1 with
  | nil => rfl
  | cons a s ih =>
    simp only [List.cons_append, List.length_cons, List.getD_cons_succ]
    exact ih

theorem getD_take {α : Type} :
    ∀ (l : List α) (d : α) (j i : Nat), i < j → (l.take j).getD i d = l.getD i d := by
  intro l
  induction l with
  | nil =>
    intro d j i _
    simp
  | cons a t ih =>
    intro d j i hij
    match j, hij with
    | j' + 1, _ =>
      match i with
      | 0 => rfl
      | i' + 1 =>
        simp only [List.take_succ_cons, List.getD_cons_succ]
        exact ih d j' i' (by omega)

theorem wcost_take_le (steps : List (Nat × Node)) (i : Nat) :
    wcost (steps.take i) ≤ wcost steps := by
  conv_rhs => rw [← List.take_append_drop i steps]
  rw [wcost_append]
  omega

theorem not_nodup_split {α : Type} :
    ∀ (l : List α), ¬ l.Nodup →
      ∃ (x : α) (l1 l2 l3 : List α), l = l1 ++ x :: (l2 ++ x :: l3) := by
  intro l
  induction l with
  | nil => intro h; exact absurd List.nodup_nil h
  | cons a t ih =>
    intro h
    rw [List.nodup_cons] at h
    push_neg at h
    by_cases ha : a ∈ t
    · obtain ⟨s, t2, hst⟩ := List.append_of_mem ha
      exact ⟨a, [], s, t2, by rw [hst]; rfl⟩
    · obtain ⟨x, l1, l2, l3, hsplit⟩ := ih (h ha)
      exact ⟨x, a :: l1, l2, l3, by rw [hsplit]; rfl⟩

theorem nodup_length_le {α : Type} [DecidableEq α] {l l' : List α}
    (hnd : l.Nodup) (hsub : ∀ x ∈ l, x ∈ l') : l.length ≤ l'.length := by
  have h1 : l.toFinset.card = l.length := by
    rw [List.card_toFinset, List.dedup_eq_self.2 hnd]
  have h2 : l.toFinset ⊆ l'.toFinset :=
    fun x hx => List.mem_toFinset.2 (hsub x (List.mem_toFinset.1 hx))
  have h3 := Finset.card_le_card h2
  have h4 := List.toFinset_card_le l'
  omega

theorem walk_nodes_sub {g : Graph} (hwf : WFg g) {v : Node} :
    ∀ (steps : List (Nat × Node)) (start : Node), start ∈ keys g →
      WalkL g start steps v → ∀ x ∈ start :: steps.map Prod.snd, x ∈ keys g := by
  intro steps
  induction steps with
  | nil =>
    intro start hst _ x hx
    rw [List.mem_singleton.1 hx]
    exact hst
  | cons e rest ih =>
    intro start hst hw x hx
    obtain ⟨h1, h2⟩ := hw
    have he2 : e.2 ∈ keys g := mem_lookupG_mem_keys hwf h1
    simp only [List.map_cons, List.mem_cons] at hx
    rcases hx with h | h | h
    · rw [h]
      exact hst
    · rw [h]
      exact he2
    · exact ih e.2 he2 h2 x (List.mem_cons_of_mem _ h)

/-- Any walk can be shortened to one with fewer than `|keys|` steps without
increasing its cost (cycle removal; weights are non-negative). -/
theorem walk_shorten {g : Graph} (hwf : WFg g) {start : Node} (hst : start ∈ keys g) :
    ∀ (n : Nat) (steps : List (Nat × Node)) (v : Node), steps.length ≤ n →
      WalkL g start steps v →
      ∃ steps', WalkL g start steps' v ∧ wcost steps' ≤ wcost steps ∧
        steps'.length < (keys g).length := by
  intro n
  induction n with
  | zero =>
    intro steps v hlen hw
    have h0 : steps = [] := List.length_eq_zero.1 (Nat.le_zero.1 hlen)
    subst h0
    exact ⟨[], hw, le_rfl, by simpa using List.length_pos_of_mem hst⟩
  | succ n ih =>
    intro steps v hlen hw
    by_cases hshort : steps.length < (keys g).length
    · exact ⟨steps, hw, le_rfl, hshort⟩
    · push_neg at hshort
      have hsub : ∀ x ∈ start :: steps.map Prod.snd, x ∈ keys g :=
        walk_nodes_sub hwf steps start hst hw
      have hnodlen : (start :: steps.map Prod.snd).length = steps.length + 1 := by
        simp
      have hnd : ¬ (start :: steps.map Prod.snd).Nodup := by
        intro hnd
        have := nodup_length_le hnd hsub
        omega
      obtain ⟨x, l1, l2, l3, hsplit⟩ := not_nodup_split _ hnd
      have hsplit2 : start :: steps.map Prod.snd = (l1 ++ x :: l2) ++ x :: l3 := by
        rw [hsplit]
        simp [List.append_assoc]
      have hi : wnode start steps l1.length = x := by
        unfold wnode
        rw [hsplit]
        exact getD_split l1 x (l2 ++ x :: l3) start
      have hj : wnode start steps (l1 ++ x :: l2).length = x := by
        unfold wnode
        rw [hsplit2]
        exact getD_split (l1 ++ x :: l2) x l3 start
      have hlens : steps.length + 1 = (l1 ++ x :: l2).length + (l3.length + 1) := by
        rw [← hnodlen, hsplit2]
        simp
        omega
      have hij : l1.length < (l1 ++ x :: l2).length := by
        simp
      have hjle : (l1 ++ x :: l2).length ≤ steps.length := by omega
      obtain ⟨hw1, hw2⟩ := walkL_split steps start v (l1 ++ x :: l2).length hjle hw
      rw [hj] at hw1 hw2
      have hile : l1.length ≤ (steps.take (l1 ++ x :: l2).length).length := by
        rw [List.length_take]
        simp only [min_def]
        split
        · omega
        · omega
      obtain ⟨hw3, _⟩ :=
        walkL_split (steps.take (l1 ++ x :: l2).length) start x l1.length hile hw1
      have htt : (steps.take (l1 ++ x :: l2).length).take l1.length =
          steps.take l1.length := by
        rw [List.take_take, min_eq_left (le_of_lt hij)]
      have hwn2 : wnode start (steps.take (l1 ++ x :: l2).length) l1.length = x := by
        unfold wnode
        rw [List.map_take, ← List.take_succ_cons,
          getD_take (start :: steps.map Prod.snd) start ((l1 ++ x :: l2).length + 1)
            l1.length (by omega)]
        exact hi
      rw [htt, hwn2] at hw3
      have hglue : WalkL g start
          (steps.take l1.length ++ steps.drop (l1 ++ x :: l2).length) v :=
        (WalkL_append _ _ start v).2 ⟨x, hw3, hw2⟩
      have hcost : wcost (steps.take l1.length ++ steps.drop (l1 ++ x :: l2).length) ≤
          wcost steps := by
        rw [wcost_append]
        have hc1 : wcost (steps.take l1.length) ≤
            wcost (steps.take (l1 ++ x :: l2).length) := by
          rw [← htt]
          exact wcost_take_le _ _
        have hc2 : wcost (steps.take (l1 ++ x :: l2).length) +
            wcost (steps.drop (l1 ++ x :: l2).length) = wcost steps := by
          rw [← wcost_append, List.take_append_drop]
        omega
      have hlen2 : (steps.take l1.length ++ steps.drop (l1 ++ x :: l2).length).length ≤ n := by
        rw [List.length_append, List.length_take, List.length_drop]
        have : l1.length ⊓ steps.length = l1.length := min_eq_left (by omega)
        rw [this]
        omega
      obtain ⟨steps', hws, hcs, hls⟩ := ih _ v hlen2 hglue
      exact ⟨steps', hws, le_trans hcs hcost, hls⟩

/-- C1 (corrected): for every well-formed graph and every start key, the
final distance table returned by `dijk` assigns to every node the reference
shortest-path distance **capped at the sentinel** `INF = 2e9`: the final
entry equals `min (bf g start |keys| v) INF` over `ℕ∞`.  In particular
unreached nodes retain the sentinel, and reachable nodes get their true
shortest-path distance exactly when that distance is below the sentinel;
a reachable node whose shortest distance is `≥ INF` also retains the
sentinel, which refutes the uncapped claim. -/
theorem dijk_final_table (g : Graph) (start : Node) (hwf : WFg g)
    (hst : start ∈ keys g) (v : Node) :
    ((dijkFinalTable g start v : Nat) : ℕ∞) =
      min (bf g start (keys g).length v) ((INF : Nat) : ℕ∞) := by
  obtain ⟨hinv, hheap⟩ := dijk_final_state g start
  set sf := dijkLoop g (dijkFuel g) (dijkInit start) with hsf
  have hD : dijkFinalTable g start = sf.d := dijkFinalTable_eq g start
  rw [hD]
  have hrel : ∀ u, ∀ e ∈ lookupG g u, sf.d e.2 ≤ sf.d u + e.1 := by
    intro u e he
    rcases hinv.relaxed u e he with hc | ⟨p, hp⟩
    · exact hc
    · rw [hheap] at hp
      exact absurd hp (List.not_mem_nil _)
  have hub : (sf.d v : ℕ∞) ≤ min (bf g start (keys g).length v) ((INF : Nat) : ℕ∞) := by
    rw [le_min_iff]
    constructor
    · rcases eq_or_ne (bf g start (keys g).length v) ⊤ with hT | hT
      · rw [hT]
        exact le_top
      · obtain ⟨c, hc⟩ := WithTop.ne_top_iff_exists.1 hT
        obtain ⟨steps, hwk, hcost⟩ := bf_attained hwf.1 (keys g).length v c hc.symm
        have hup := dijk_upper hrel steps start v hwk
        rw [hinv.d_start, hcost] at hup
        have hcoe : ((c : Nat) : ℕ∞) = bf g start (keys g).length v := hc
        rw [← hcoe]
        exact_mod_cast (by omega : sf.d v ≤ c)
    · exact_mod_cast hinv.d_le v
  have hlb : min (bf g start (keys g).length v) ((INF : Nat) : ℕ∞) ≤ (sf.d v : ℕ∞) := by
    rcases lt_or_ge (sf.d v) INF with hlt | hge
    · obtain ⟨steps, hwk, hcost⟩ := hinv.d_walk v hlt
      obtain ⟨steps', hw', hc', hl'⟩ := walk_shorten hwf hst steps.length steps v le_rfl hwk
      have hbf := bf_le_walk steps' v (keys g).length hw' (le_of_lt hl')
      refine le_trans (min_le_left _ _) (le_trans hbf ?_)
      exact_mod_cast hc'.trans (le_of_eq hcost)
    · have heq : sf.d v = INF := le_antisymm (hinv.d_le v) hge
      rw [heq]
      exact min_le_right _ _
  exact le_antisymm hub hlb

/-- C1 counterexample to the uncapped claim: in `gHeavy` the only edge into
node `1` costs `3e9 ≥ INF`, so node `1` is in the start's component and its
true shortest-path distance is `3e9`, yet the final `dijk` table still holds
the sentinel `2e9`. -/
theorem dijk_overflow_example :
    connAdj gHeavy 0 1 ∧
    bf gHeavy 0 (keys gHeavy).length 1 = ((3000000000 : Nat) : ℕ∞) ∧
    dijkFinalTable gHeavy 0 1 = INF ∧
    dijkFinalTable gHeavy 0 1 ≠ 3000000000 := by
  refine ⟨?_, ?_, ?_, ?_⟩
  · exact Relation.ReflTransGen.single ⟨3000000000, by decide⟩
  · decide
  · decide
  · decide

theorem dijk_final_table_witness :
    WFg gSquare ∧ 0 ∈ keys gSquare ∧
      ((dijkFinalTable gSquare 0 3 : Nat) : ℕ∞) =
        min (bf gSquare 0 (keys gSquare).length 3) ((INF : Nat) : ℕ∞) :=
  ⟨by decide, by decide, dijk_final_table gSquare 0 (by decide) (by decide) 3⟩

/-- C8: for every graph and every start node, the sequence of distances
recorded for any fixed node across the successive `animation_dists`
snapshots returned by `dijk` is non-increasing (each relaxation strictly
decreases exactly one entry and never increases any). -/
theorem dijk_snapshots_monotone (g : Graph) (s : Node) :
    List.Pairwise (fun d1 d2 => ∀ v, d2 v ≤ d1 v) (dijk g s).1 := by
  have h : MonoInv (dijkInit s) := by
    constructor
    · simp [dijkInit]
    · intro a ha
      simp [dijkInit] at ha
      subst ha
      intro v
      exact le_rfl
  exact (dijkLoop_mono g (dijkFuel g) (dijkInit s) h).1

end GTV
